import Mathlib

/-!
# Verification of the toro synchronization-primitive library

A shallow embedding of `toro/__init__.py`: cooperative synchronization
primitives (queues, async results, events, conditions, semaphores) for a
single-threaded event loop.  Waiting is expressed as registering a
continuation; unblocking as scheduling a continuation for a later
scheduler turn.

Modelling conventions:
* Continuations are opaque values of a type `κ`; whether a Python object
  is callable is an abstract predicate `c : κ → Bool` threaded through
  the operations (the source checks `callable(cb)` via `_check_callback`).
* A `_Waiter` is represented by its `callback` slot: `Option κ`, where
  `none` means the continuation has already been consumed (the waiter is
  "expired", either run or timed out).
* Invoking a callback synchronously is recorded as an `Eff`; registering
  a callback with `IOLoop.add_callback` is recorded as a `Sched` (the
  scheduled thunks run on the next scheduler turn).
* Exceptions are `Except Err`; `Err.typeError` stands for the `TypeError`
  raised by `_check_callback`, `Err.full` / `Err.empty` for the `Queue`
  module's flow-control exceptions, etc.
* Timer expiry is modelled as a nondeterministic transition that consumes
  a waiter's callback slot (see the step relations below).
-/

namespace Toro

/-- Exceptions surfaced by the library: `Queue.Full`, `Queue.Empty`,
`NotReady`, `AlreadySet`, `TypeError` (non-callable continuation) and
`ValueError` (argument / accounting errors). -/
inductive Err where
  | full
  | empty
  | notReady
  | alreadySet
  | typeError
  | valueError
  deriving DecidableEq, Repr

/-- A value passed to a continuation: a queue item, the `Empty` sentinel
class (passed to timed-out getters), a boolean (passed to put callbacks
and semaphore-acquire callbacks), no argument at all, or Python's
`None` (passed by `AsyncResult` paths). -/
inductive CVal (α : Type) where
  | item (a : α)
  | emptyS
  | bool (b : Bool)
  | unit
  | pynone
  deriving DecidableEq, Repr

/-- A Python value that may be `None`, as a continuation argument. -/
def cvalOf (v : Option α) : CVal α :=
  match v with
  | some a => .item a
  | none => .pynone

/-- An observable effect of an operation: a continuation invoked
synchronously with a value, or an exception raised by a continuation and
caught-and-logged by `ToroBase._run_callback`. -/
inductive Eff (κ α : Type) where
  | fired (k : κ) (v : CVal α)
  | logged (k : κ)
  deriving DecidableEq, Repr

/-- A thunk registered with `IOLoop.add_callback`, to run on the next
scheduler turn: `next k v` is `partial(k, v)`; `wake w` is
`partial(putter.run, True)` for a popped putter waiter `w`. -/
inductive Sched (κ α : Type) where
  | next (k : κ) (v : CVal α)
  | wake (w : Option κ)
  deriving DecidableEq, Repr

/-- `ToroBase._next_tick(callback, *args)`: if a callback was supplied,
check it is callable and register it on the io_loop for the next turn. -/
def nextTickS (c : κ → Bool) (cb : Option κ) (v : CVal α) :
    Except Err Unit × List (Sched κ α) :=
  match cb with
  | none => (.ok (), [])
  | some k => if c k then (.ok (), [.next k v]) else (.error .typeError, [])

/-- A pluggable storage discipline for `Queue`: the `_put` / `_get` pair
(FIFO deque for `Queue`, min-heap for `PriorityQueue`, stack for
`LifoQueue`), together with the size facts every discipline satisfies
(`_put` adds one element; `_get` removes one and fails exactly on empty
storage). -/
structure Discipline (α : Type) where
  dput : List α → α → List α
  dget : List α → Option (α × List α)
  dput_len : ∀ l x, (dput l x).length = l.length + 1
  dget_none : ∀ l, dget l = none ↔ l = []
  dget_len : ∀ l a l', dget l = some (a, l') → l'.length + 1 = l.length

theorem Discipline.dput_ne_nil (d : Discipline α) (l : List α) (x : α) :
    d.dput l x ≠ [] := by
  intro h
  have := d.dput_len l x
  rw [h] at this
  simp at this

/-- `_get` on storage known to be non-empty (the source only calls `_get`
when an element is present). -/
def Discipline.dgetNE (d : Discipline α) (l : List α) (h : l ≠ []) :
    α × List α :=
  match hD : d.dget l with
  | some p => p
  | none => ((h ((d.dget_none l).mp hD)).elim : α × List α)

theorem Discipline.dget_dgetNE (d : Discipline α) (l : List α) (h : l ≠ []) :
    d.dget l = some (d.dgetNE l h) := by
  unfold Discipline.dgetNE
  split
  · assumption
  · next hD => exact absurd ((d.dget_none l).mp hD) h

theorem Discipline.dgetNE_len (d : Discipline α) (l : List α) (h : l ≠ []) :
    (d.dgetNE l h).2.length + 1 = l.length :=
  d.dget_len l (d.dgetNE l h).1 (d.dgetNE l h).2 (by
    have := d.dget_dgetNE l h
    rw [this])

/-- The FIFO deque discipline of the base `Queue`
(`_put` = `append`, `_get` = `popleft`). -/
def fifo (α : Type) : Discipline α where
  dput l x := l ++ [x]
  dget l := match l with
    | [] => none
    | a :: t => some (a, t)
  dput_len l x := by simp
  dget_none l := by cases l <;> simp
  dget_len l a l' h := by
    cases l with
    | nil => simp at h
    | cons b t => simp at h; simp [h.2]

/-- The stack discipline of `LifoQueue`
(`_put` = `append`, `_get` = `pop` from the end). -/
def lifo (α : Type) : Discipline α where
  dput l x := l ++ [x]
  dget l := match l.getLast? with
    | none => none
    | some a => some (a, l.dropLast)
  dput_len l x := by simp
  dget_none l := by
    cases h : l.getLast? with
    | none => simpa [h] using List.getLast?_eq_none_iff.mp h
    | some a =>
      simp only [h]
      simp
      intro hnil
      rw [hnil] at h
      simp at h
  dget_len l a l' h := by
    cases hl : l.getLast? with
    | none => simp only [hl] at h; simp at h
    | some b =>
      simp only [hl] at h
      simp at h
      have hne : l ≠ [] := by
        intro hnil; rw [hnil] at hl; simp at hl
      rw [← h.2]
      have hpos : 0 < l.length := List.length_pos.mpr hne
      simp [List.length_dropLast]
      omega

/-- The state of a `toro.Queue`: optional size bound, the storage
container, the deque of getter waiters, and the deque of
`(item, waiter)` pairs for parked putters.  A waiter is its callback
slot; `none` means expired/consumed. -/
structure Queue (α κ : Type) where
  maxsize : Option Nat
  queue : List α
  getters : List (Option κ)
  putters : List (α × Option κ)
  deriving DecidableEq, Repr

/-- `Queue.__init__(maxsize)`: empty storage, no waiters. -/
def Queue.init (α κ : Type) (maxsize : Option Nat) : Queue α κ :=
  ⟨maxsize, [], [], []⟩

/-- `Queue._consume_expired_getters`: drop expired waiters at the head. -/
def pruneGetters (l : List (Option κ)) : List (Option κ) :=
  l.dropWhile fun w => w.isNone

/-- `Queue._consume_expired_putters`: drop pairs whose waiter expired,
from the head. -/
def prunePutters (l : List (α × Option κ)) : List (α × Option κ) :=
  l.dropWhile fun p => p.2.isNone

/-- `Queue.qsize()`: number of items in storage. -/
def Queue.qsize (s : Queue α κ) : Nat :=
  s.queue.length

/-- `Queue.empty()`. -/
def Queue.isEmptyQ (s : Queue α κ) : Bool :=
  s.queue.isEmpty

/-- `Queue.full()`: `False` for unbounded queues, `True` for
`maxsize == 0`, else `qsize() == maxsize`. -/
def Queue.full (s : Queue α κ) : Bool :=
  match s.maxsize with
  | none => false
  | some m => if m = 0 then true else s.queue.length == m

/-- Result of `Queue.put`: the outcome (`()` or a raised exception), the
queue state after the call, the continuations invoked synchronously
during the call, and the thunks registered for the next scheduler
turn. -/
structure PutR (α κ : Type) where
  res : Except Err Unit
  state : Queue α κ
  effs : List (Eff κ α)
  scheds : List (Sched κ α)
  deriving Repr

/-- Result of `Queue.get`: as `PutR`, but the non-blocking path returns
the item (`Except Err (Option α)`; a callback-bearing call returns
`none`, Python's `None`). -/
structure GetRes (α κ : Type) where
  res : Except Err (Option α)
  state : Queue α κ
  effs : List (Eff κ α)
  scheds : List (Sched κ α)
  deriving Repr

/-- `Queue.put(item, callback, timeout)`.

1. prune expired getters; if a (live) getter waits: pop it, feed the
   item through `_put` then `_get`, run the getter with the result, and
   `_next_tick(callback, True)`;
2. else if the queue is full and a callback was supplied: check it and
   park `(item, waiter)`; the waiter's callback re-defers the user
   callback one extra turn (see `Sched.next` emitted when it runs);
3. else if full: raise `Full`;
4. else: `_put(item)` and `_next_tick(callback, True)`. -/
def Queue.put (d : Discipline α) (c : κ → Bool) (s : Queue α κ)
    (item : α) (cb : Option κ) : PutR α κ :=
  match pruneGetters s.getters with
  | g :: rest =>
    let p := d.dgetNE (d.dput s.queue item) (d.dput_ne_nil s.queue item)
    let effs := match g with
      | some k => [Eff.fired k (CVal.item p.1)]
      | none => []
    let n := nextTickS c cb (CVal.bool true)
    ⟨n.1, { s with getters := rest, queue := p.2 }, effs, n.2⟩
  | [] =>
    if s.maxsize = some s.queue.length then
      match cb with
      | some k =>
        if c k then
          ⟨.ok (), { s with getters := [], putters := s.putters ++ [(item, some k)] }, [], []⟩
        else
          ⟨.error .typeError, { s with getters := [] }, [], []⟩
      | none => ⟨.error .full, { s with getters := [] }, [], []⟩
    else
      let n := nextTickS c cb (CVal.bool true)
      ⟨n.1, { s with getters := [], queue := d.dput s.queue item }, [], n.2⟩

/-- `Queue.get(callback, timeout)`.

1. prune expired putters; if a (live) putter waits: pop
   `(item, putter)`, `_put(item)`; with a callback, run it synchronously
   with `_get()` (exceptions caught and logged by `_run_callback`) and
   run the putter's waiter with `True` (which re-registers the user put
   callback for the next turn); without a callback, register
   `putter.run(True)` on the io_loop and return `_get()`;
2. else if storage non-empty: run the callback with `_get()` or return
   `_get()`;
3. else with a callback: check it and park a getter waiter;
4. else: raise `Empty`. -/
def Queue.get (d : Discipline α) (c : κ → Bool) (s : Queue α κ)
    (cb : Option κ) : GetRes α κ :=
  match prunePutters s.putters with
  | (item, pw) :: rest =>
    let p := d.dgetNE (d.dput s.queue item) (d.dput_ne_nil s.queue item)
    match cb with
    | some k =>
      let effs := if c k then [Eff.fired k (CVal.item p.1)] else [Eff.logged k]
      let sch : List (Sched κ α) := match pw with
        | some pk => [Sched.next pk (CVal.bool true)]
        | none => []
      ⟨.ok none, { s with putters := rest, queue := p.2 }, effs, sch⟩
    | none =>
      ⟨.ok (some p.1), { s with putters := rest, queue := p.2 }, [],
       [Sched.wake pw]⟩
  | [] =>
    if h : s.queue.length = 0 then
      match cb with
      | some k =>
        if c k then
          ⟨.ok none, { s with putters := [], getters := s.getters ++ [some k] }, [], []⟩
        else
          ⟨.error .typeError, { s with putters := [] }, [], []⟩
      | none => ⟨.error .empty, { s with putters := [] }, [], []⟩
    else
      let p := d.dgetNE s.queue (List.length_pos.mp (Nat.pos_of_ne_zero h))
      match cb with
      | some k =>
        ⟨.ok none, { s with putters := [], queue := p.2 },
         if c k then [Eff.fired k (CVal.item p.1)] else [Eff.logged k], []⟩
      | none => ⟨.ok (some p.1), { s with putters := [], queue := p.2 }, [], []⟩

/-- The queue invariants of the data model: (i) if getters wait, storage
is empty; (ii) if putters wait, storage holds exactly `maxsize` items;
(iii) storage never exceeds a finite `maxsize`. -/
def QInv (s : Queue α κ) : Prop :=
  (s.getters ≠ [] → s.queue = []) ∧
  (s.putters ≠ [] → s.maxsize = some s.queue.length) ∧
  (∀ m, s.maxsize = some m → s.queue.length ≤ m)

theorem pruneGetters_ne_nil {l : List (Option κ)} :
    pruneGetters l ≠ [] → l ≠ [] := by
  intro h hl
  rw [hl] at h
  simp [pruneGetters] at h

theorem prunePutters_ne_nil {l : List (α × Option κ)} :
    prunePutters l ≠ [] → l ≠ [] := by
  intro h hl
  rw [hl] at h
  simp [prunePutters] at h

theorem QInv_put (d : Discipline α) (c : κ → Bool) (s : Queue α κ)
    (item : α) (cb : Option κ) (hs : QInv s) :
    QInv (Queue.put d c s item cb).state := by
  obtain ⟨h1, h2, h3⟩ := hs
  unfold Queue.put
  split
  case _ g rest hgs =>
    have hlen : (d.dgetNE (d.dput s.queue item)
        (d.dput_ne_nil s.queue item)).2.length = s.queue.length := by
      have ha := d.dgetNE_len (d.dput s.queue item) (d.dput_ne_nil s.queue item)
      have hb := d.dput_len s.queue item
      omega
    dsimp only [QInv]
    refine ⟨?_, ?_, ?_⟩
    · intro hrest
      have hget : s.getters ≠ [] := pruneGetters_ne_nil (by rw [hgs]; simp)
      have hq := h1 hget
      have hq0 : s.queue.length = 0 := by rw [hq]; rfl
      rw [← List.length_eq_zero]
      omega
    · intro hput
      rw [hlen]
      exact h2 hput
    · intro m hm
      rw [hlen]
      exact h3 m hm
  case _ hgs =>
    split
    case isTrue hfull =>
      split
      case _ k =>
        split
        case isTrue hck =>
          dsimp only [QInv]
          refine ⟨by intro h; simp at h, fun _ => hfull, h3⟩
        case isFalse hck =>
          dsimp only [QInv]
          refine ⟨by intro h; simp at h, h2, h3⟩
      case _ =>
        dsimp only [QInv]
        refine ⟨by intro h; simp at h, h2, h3⟩
    case isFalse hfull =>
      dsimp only [QInv]
      have hdl := d.dput_len s.queue item
      refine ⟨by intro h; simp at h, ?_, ?_⟩
      · intro hput
        exact absurd (h2 hput) hfull
      · intro m hm
        rw [hdl]
        have hle := h3 m hm
        have hne : s.queue.length ≠ m := by
          intro he
          rw [he] at hfull
          exact hfull hm
        omega

theorem QInv_get (d : Discipline α) (c : κ → Bool) (s : Queue α κ)
    (cb : Option κ) (hs : QInv s) :
    QInv (Queue.get d c s cb).state := by
  obtain ⟨h1, h2, h3⟩ := hs
  unfold Queue.get
  split
  case _ item pw rest hps =>
    have hlen : (d.dgetNE (d.dput s.queue item)
        (d.dput_ne_nil s.queue item)).2.length = s.queue.length := by
      have ha := d.dgetNE_len (d.dput s.queue item) (d.dput_ne_nil s.queue item)
      have hb := d.dput_len s.queue item
      omega
    have hput : s.putters ≠ [] := prunePutters_ne_nil (by rw [hps]; simp)
    have hmax := h2 hput
    split
    case _ k =>
      dsimp only [QInv]
      refine ⟨?_, ?_, ?_⟩
      · intro hg
        have hq := h1 hg
        have hq0 : s.queue.length = 0 := by rw [hq]; rfl
        rw [← List.length_eq_zero]
        omega
      · intro _
        rw [hlen]
        exact hmax
      · intro m hm
        rw [hlen]
        exact h3 m hm
    case _ =>
      dsimp only [QInv]
      refine ⟨?_, ?_, ?_⟩
      · intro hg
        have hq := h1 hg
        have hq0 : s.queue.length = 0 := by rw [hq]; rfl
        rw [← List.length_eq_zero]
        omega
      · intro _
        rw [hlen]
        exact hmax
      · intro m hm
        rw [hlen]
        exact h3 m hm
  case _ hps =>
    split
    case isTrue hq =>
      split
      case _ k =>
        split
        case isTrue hck =>
          dsimp only [QInv]
          exact ⟨fun _ => List.length_eq_zero.mp hq, by intro h; simp at h, h3⟩
        case isFalse hck =>
          dsimp only [QInv]
          exact ⟨fun _ => List.length_eq_zero.mp hq, by intro h; simp at h, h3⟩
      case _ =>
        dsimp only [QInv]
        exact ⟨fun _ => List.length_eq_zero.mp hq, by intro h; simp at h, h3⟩
    case isFalse hq =>
      have hlen := d.dgetNE_len s.queue (List.length_pos.mp (Nat.pos_of_ne_zero hq))
      split
      case _ k =>
        dsimp only [QInv]
        refine ⟨?_, by intro h; simp at h, ?_⟩
        · intro hg
          exact absurd (h1 hg) (List.length_pos.mp (Nat.pos_of_ne_zero hq))
        · intro m hm
          have := h3 m hm
          omega
      case _ =>
        dsimp only [QInv]
        refine ⟨?_, by intro h; simp at h, ?_⟩
        · intro hg
          exact absurd (h1 hg) (List.length_pos.mp (Nat.pos_of_ne_zero hq))
        · intro m hm
          have := h3 m hm
          omega

/-- One observable transition on a queue: a `put` or `get` call (with any
item, any continuation argument, any callability of objects), or the
expiry of one waiter's timeout (which consumes its callback slot where it
sits in the deque). -/
inductive QStep (d : Discipline α) : Queue α κ → Queue α κ → Prop where
  | put (s : Queue α κ) (c : κ → Bool) (item : α) (cb : Option κ) :
      QStep d s (Queue.put d c s item cb).state
  | get (s : Queue α κ) (c : κ → Bool) (cb : Option κ) :
      QStep d s (Queue.get d c s cb).state
  | expireGetter (s : Queue α κ) (i : Nat) :
      QStep d s { s with getters := s.getters.set i none }
  | expirePutter (s : Queue α κ) (i : Nat) (hi : i < s.putters.length) :
      QStep d s
        { s with putters := s.putters.set i ((s.putters.get ⟨i, hi⟩).1, none) }

/-- States reachable from a freshly constructed `Queue(maxsize)` by any
sequence of put / get calls and timeout expiries. -/
def QReach (d : Discipline α) (m : Option Nat) (s : Queue α κ) : Prop :=
  Relation.ReflTransGen (QStep d) (Queue.init α κ m) s

theorem QInv_init (m : Option Nat) : QInv (Queue.init α κ m) := by
  refine ⟨by intro h; simp [Queue.init] at h, by intro h; simp [Queue.init] at h, ?_⟩
  intro n _
  simp [Queue.init]

theorem QInv_step {d : Discipline α} {s s' : Queue α κ}
    (hstep : QStep d s s') (hs : QInv s) : QInv s' := by
  cases hstep with
  | put c item cb => exact QInv_put d c s item cb hs
  | get c cb => exact QInv_get d c s cb hs
  | expireGetter i =>
    obtain ⟨h1, h2, h3⟩ := hs
    refine ⟨?_, h2, h3⟩
    intro hg
    apply h1
    intro hnil
    rw [hnil] at hg
    simp at hg
  | expirePutter i hi =>
    obtain ⟨h1, h2, h3⟩ := hs
    refine ⟨h1, ?_, h3⟩
    intro hp
    apply h2
    intro hnil
    rw [hnil] at hi
    simp at hi

/-- Every reachable queue state satisfies the queue invariants. -/
theorem QReach_inv {d : Discipline α} {m : Option Nat} {s : Queue α κ}
    (h : QReach d m s) : QInv s := by
  induction h with
  | refl => exact QInv_init m
  | tail _ hstep ih => exact QInv_step hstep ih

/-- The state of an `AsyncResult`: a one-shot cell `(ready, value)` plus
a list of waiters.  `value` starts as Python `None`. -/
structure AsyncResult (V κ : Type) where
  ready : Bool
  value : Option V
  waiters : List (Option κ)
  deriving DecidableEq, Repr

/-- `AsyncResult.__init__`. -/
def AsyncResult.init (V κ : Type) : AsyncResult V κ :=
  ⟨false, none, []⟩

/-- Result of `AsyncResult.set`. -/
structure ARSetR (V κ : Type) where
  res : Except Err Unit
  state : AsyncResult V κ
  effs : List (Eff κ V)
  deriving Repr

/-- `AsyncResult.set(value)`: raise `AlreadySet` if ready; otherwise
store the value, mark ready, swap out the waiter list and run each
waiter with the value (`_Waiter.run` is a no-op on a consumed waiter). -/
def AsyncResult.set (s : AsyncResult V κ) (v : V) : ARSetR V κ :=
  if s.ready then ⟨.error .alreadySet, s, []⟩
  else
    ⟨.ok (), ⟨true, some v, []⟩,
     s.waiters.filterMap fun w => w.map fun k => Eff.fired k (CVal.item v)⟩

/-- Result of `AsyncResult.get`. -/
structure ARGetR (V κ : Type) where
  res : Except Err (Option V)
  state : AsyncResult V κ
  scheds : List (Sched κ V)
  deriving Repr

/-- `AsyncResult.get(callback, timeout)`: if ready, return the value
(no callback) or schedule the callback with the value for the next turn;
if not ready, raise `NotReady` (no callback) or park a waiter. -/
def AsyncResult.get (c : κ → Bool) (s : AsyncResult V κ) (cb : Option κ) :
    ARGetR V κ :=
  if s.ready then
    match cb with
    | none => ⟨.ok s.value, s, []⟩
    | some k =>
      let n := nextTickS c (some k) (cvalOf s.value)
      ⟨n.1.map fun _ => none, s, n.2⟩
  else
    match cb with
    | none => ⟨.error .notReady, s, []⟩
    | some k =>
      if c k then ⟨.ok none, { s with waiters := s.waiters ++ [some k] }, []⟩
      else ⟨.error .typeError, s, []⟩

/-- `AsyncResult.ready()`. -/
def AsyncResult.isReady (s : AsyncResult V κ) : Bool :=
  s.ready

/-- The pop-up-to-`n`-live-waiters loop of `Condition.notify`: prune
expired heads, pop a waiter, prune again, until `n` waiters were popped
or the queue is empty.  Returns (remaining queue, popped waiters). -/
def notifyCollect : Nat → List (Option κ) → List (Option κ) × List (Option κ)
  | 0, ws => (pruneGetters ws, [])
  | n + 1, ws =>
    match pruneGetters ws with
    | [] => ([], [])
    | w :: rest =>
      let p := notifyCollect n rest
      (p.1, w :: p.2)

/-- `Condition.wait(callback, timeout)`: append a `_Waiter` (whose
constructor checks the callback is callable). -/
def Condition.wait (c : κ → Bool) (ws : List (Option κ)) (cb : κ) :
    Except Err Unit × List (Option κ) :=
  if c cb then (.ok (), ws ++ [some cb]) else (.error .typeError, ws)

/-- `Condition.notify(n)`: pop up to `n` live waiters and run them
synchronously in order. -/
def Condition.notify (α : Type) (ws : List (Option κ)) (n : Nat) :
    List (Option κ) × List (Eff κ α) :=
  let p := notifyCollect n ws
  (p.1, p.2.filterMap fun w => w.map fun k => Eff.fired k CVal.unit)

/-- The state of an `Event`: a boolean flag over a `Condition` (the
condition is its waiter deque). -/
structure EventState (κ : Type) where
  flag : Bool
  waiters : List (Option κ)
  deriving DecidableEq, Repr

/-- `Event.__init__`. -/
def Event.init (κ : Type) : EventState κ :=
  ⟨false, []⟩

/-- `Event.is_set()`. -/
def Event.isSet (e : EventState κ) : Bool :=
  e.flag

/-- `Event.set()`: set the flag and `notify_all` (which runs the live
waiters synchronously). -/
def Event.set (α : Type) (e : EventState κ) :
    EventState κ × List (Eff κ α) :=
  let p := Condition.notify α e.waiters e.waiters.length
  (⟨true, p.1⟩, p.2)

/-- `Event.clear()`. -/
def Event.clear (e : EventState κ) : EventState κ :=
  ⟨false, e.waiters⟩

/-- `Event.wait(callback, timeout)`: if the flag is set, schedule the
callback for the next turn; otherwise park it on the condition. -/
def Event.wait (α : Type) (c : κ → Bool) (e : EventState κ) (cb : κ) :
    Except Err Unit × EventState κ × List (Sched κ α) :=
  if e.flag then
    let n := nextTickS c (some cb) (CVal.unit : CVal α)
    (n.1, e, n.2)
  else
    let w := Condition.wait c e.waiters cb
    (w.1, ⟨e.flag, w.2⟩, [])

/-- The state of a `JoinableQueue`: a queue plus the outstanding-task
counter and the `finished` event. -/
structure JoinableQueue (α κ : Type) where
  q : Queue α κ
  unfinished_tasks : Nat
  finished : EventState κ
  deriving DecidableEq, Repr

/-- `JoinableQueue.join(callback, timeout)`: if no unfinished task,
schedule the callback for the next turn; else wait on `finished`. -/
def JoinableQueue.join (c : κ → Bool) (s : JoinableQueue α κ) (cb : κ) :
    Except Err Unit × JoinableQueue α κ × List (Sched κ α) :=
  if s.unfinished_tasks = 0 then
    let n := nextTickS c (some cb) (CVal.unit : CVal α)
    (n.1, s, n.2)
  else
    let w := Event.wait α c s.finished cb
    (w.1, { s with finished := w.2.1 }, w.2.2)

theorem Queue.put_len_le (d : Discipline α) (c : κ → Bool) (s : Queue α κ)
    (item : α) (cb : Option κ) :
    (Queue.put d c s item cb).state.queue.length ≤ s.queue.length + 1 := by
  unfold Queue.put
  split
  case _ g rest hgs =>
    have ha := d.dgetNE_len (d.dput s.queue item) (d.dput_ne_nil s.queue item)
    have hb := d.dput_len s.queue item
    dsimp only
    omega
  case _ hgs =>
    split
    · split
      · split <;> simp
      · simp
    · have := d.dput_len s.queue item
      dsimp only
      omega

theorem Queue.get_len_le (d : Discipline α) (c : κ → Bool) (s : Queue α κ)
    (cb : Option κ) :
    (Queue.get d c s cb).state.queue.length ≤ s.queue.length := by
  unfold Queue.get
  split
  case _ item pw rest hps =>
    have ha := d.dgetNE_len (d.dput s.queue item) (d.dput_ne_nil s.queue item)
    have hb := d.dput_len s.queue item
    split <;> dsimp only <;> omega
  case _ hps =>
    split
    case isTrue hq =>
      split
      · split <;> simp
      · simp
    case isFalse hq =>
      have := d.dgetNE_len s.queue (List.length_pos.mp (Nat.pos_of_ne_zero hq))
      split <;> dsimp only <;> omega

/-- The continuation type living inside a `Semaphore`'s internal queue
and event: either the `lambda value: callback(value is not Empty)`
wrapper that `acquire` registers as a queue getter, or a plain user
continuation registered through `wait`. -/
inductive SemCb (κ : Type) where
  | trans (k : κ)
  | user (k : κ)
  deriving DecidableEq, Repr

/-- Callability of the semaphore-level continuations: the translating
lambda is always callable; a user continuation is as callable as the
object the user passed. -/
def semCallable (c : κ → Bool) : SemCb κ → Bool
  | .trans _ => true
  | .user k => c k

/-- The state of a `Semaphore`: an unbounded queue holding one `None`
sentinel (modelled as `()`) per counter unit, plus the `unlocked`
event. -/
structure Semaphore (κ : Type) where
  q : Queue Unit (SemCb κ)
  unlocked : EventState (SemCb κ)
  deriving DecidableEq, Repr

/-- `Semaphore.__init__(value)`: pre-`put` `value` sentinels into a
fresh unbounded queue, and set `unlocked` iff `value` is non-zero. -/
def Semaphore.init (κ : Type) (value : Nat) : Semaphore κ :=
  { q := (List.range value).foldl
      (fun q _ => (Queue.put (fifo Unit) (semCallable fun _ => true) q () none).state)
      (Queue.init Unit (SemCb κ) none),
    unlocked := { flag := value != 0, waiters := [] } }

/-- `Semaphore.counter`: the current semaphore value, `q.qsize()`. -/
def Semaphore.counter (s : Semaphore κ) : Nat :=
  s.q.qsize

/-- `Semaphore.locked()`: `True` iff the counter is zero. -/
def Semaphore.locked (s : Semaphore κ) : Bool :=
  s.q.isEmptyQ

/-- `Semaphore.release()`: put a sentinel back (waking a parked acquire
directly, if any) and set the `unlocked` event. -/
def Semaphore.release (c : κ → Bool) (s : Semaphore κ) :
    Semaphore κ × List (Eff (SemCb κ) Unit) × List (Sched (SemCb κ) Unit) :=
  let p := Queue.put (fifo Unit) (semCallable c) s.q () none
  let e := Event.set Unit s.unlocked
  (⟨p.state, e.1⟩, p.effs ++ e.2, p.scheds)

/-- `Semaphore.wait(callback, timeout)`: wait on the `unlocked` event. -/
def Semaphore.wait (c : κ → Bool) (s : Semaphore κ) (cb : κ) :
    Except Err Unit × Semaphore κ × List (Sched (SemCb κ) Unit) :=
  let w := Event.wait Unit (semCallable c) s.unlocked (SemCb.user cb)
  (w.1, ⟨s.q, w.2.1⟩, w.2.2)

/-- Result of `Semaphore.acquire`: the non-blocking path returns a
boolean (`Empty` is caught and turned into `False`). -/
structure AcqR (κ : Type) where
  res : Except Err (Option Bool)
  state : Semaphore κ
  effs : List (Eff (SemCb κ) Unit)
  scheds : List (Sched (SemCb κ) Unit)
  deriving Repr

/-- `Semaphore.acquire(callback, timeout)`: with a callback, check it
and delegate to `q.get` with the translating lambda; without one, call
`q.get()` returning `True`, or `False` when it raises `Empty`. -/
def Semaphore.acquire (c : κ → Bool) (s : Semaphore κ) (cb : Option κ) :
    AcqR κ :=
  match cb with
  | some k =>
    if c k then
      let g := Queue.get (fifo Unit) (semCallable c) s.q (some (SemCb.trans k))
      ⟨.ok none, ⟨g.state, s.unlocked⟩, g.effs, g.scheds⟩
    else ⟨.error .typeError, s, [], []⟩
  | none =>
    let g := Queue.get (fifo Unit) (semCallable c) s.q none
    match g.res with
    | .ok _ => ⟨.ok (some true), ⟨g.state, s.unlocked⟩, g.effs, g.scheds⟩
    | .error .empty => ⟨.ok (some false), ⟨g.state, s.unlocked⟩, g.effs, g.scheds⟩
    | .error e => ⟨.error e, ⟨g.state, s.unlocked⟩, g.effs, g.scheds⟩

/-- The state of a `BoundedSemaphore`: a semaphore plus the immutable
initial value. -/
structure BoundedSemaphore (κ : Type) where
  sem : Semaphore κ
  initial_value : Nat
  deriving DecidableEq, Repr

/-- `BoundedSemaphore.__init__(value)`. -/
def BoundedSemaphore.init (κ : Type) (value : Nat) : BoundedSemaphore κ :=
  ⟨Semaphore.init κ value, value⟩

/-- `BoundedSemaphore.release()`: raise `ValueError` if the counter is
already at (or above) the initial value, else delegate to
`Semaphore.release`. -/
def BoundedSemaphore.release (c : κ → Bool) (s : BoundedSemaphore κ) :
    Except Err Unit × BoundedSemaphore κ × List (Eff (SemCb κ) Unit) ×
      List (Sched (SemCb κ) Unit) :=
  if s.initial_value ≤ s.sem.counter then (.error .valueError, s, [], [])
  else
    let r := Semaphore.release c s.sem
    (.ok (), ⟨r.1, s.initial_value⟩, r.2.1, r.2.2)

theorem Semaphore.init_q (κ : Type) (v : Nat) :
    (Semaphore.init κ v).q =
      { maxsize := none, queue := List.replicate v (),
        getters := [], putters := [] } := by
  show (List.range v).foldl _ _ = _
  induction v with
  | zero => rfl
  | succ n ih =>
    rw [List.range_succ, List.foldl_append, ih]
    simp only [List.foldl_cons, List.foldl_nil]
    rw [List.replicate_succ']
    rfl

theorem Semaphore.init_counter (κ : Type) (v : Nat) :
    (Semaphore.init κ v).counter = v := by
  show (Semaphore.init κ v).q.queue.length = v
  rw [Semaphore.init_q]
  simp

theorem Semaphore.acquire_counter_le (c : κ → Bool) (s : Semaphore κ)
    (cb : Option κ) : (Semaphore.acquire c s cb).state.counter ≤ s.counter := by
  unfold Semaphore.acquire
  cases cb with
  | some k =>
    by_cases hck : c k
    · simp only [hck, if_pos]
      exact Queue.get_len_le _ _ _ _
    · simp only [hck, if_neg]
      exact le_refl _
  | none =>
    have hle := Queue.get_len_le (fifo Unit) (semCallable c) s.q none
    dsimp only
    split <;> exact hle

theorem Semaphore.release_counter_le (c : κ → Bool) (s : Semaphore κ) :
    (Semaphore.release c s).1.counter ≤ s.counter + 1 :=
  Queue.put_len_le (fifo Unit) (semCallable c) s.q () none

/-- One observable transition on a `BoundedSemaphore`: an `acquire`,
`release` or `wait` call, or the expiry of a parked acquire's waiter or
of a `wait` waiter. -/
inductive BStep : BoundedSemaphore κ → BoundedSemaphore κ → Prop where
  | acquire (s : BoundedSemaphore κ) (c : κ → Bool) (cb : Option κ) :
      BStep s ⟨(Semaphore.acquire c s.sem cb).state, s.initial_value⟩
  | release (s : BoundedSemaphore κ) (c : κ → Bool) :
      BStep s (BoundedSemaphore.release c s).2.1
  | wait (s : BoundedSemaphore κ) (c : κ → Bool) (cb : κ) :
      BStep s ⟨(Semaphore.wait c s.sem cb).2.1, s.initial_value⟩
  | expireGetter (s : BoundedSemaphore κ) (i : Nat) :
      BStep s ⟨⟨{ s.sem.q with getters := s.sem.q.getters.set i none },
                s.sem.unlocked⟩, s.initial_value⟩
  | expireCond (s : BoundedSemaphore κ) (i : Nat) :
      BStep s ⟨⟨s.sem.q,
                { s.sem.unlocked with
                  waiters := s.sem.unlocked.waiters.set i none }⟩,
               s.initial_value⟩

/-- States reachable from a freshly constructed `BoundedSemaphore(v)`. -/
def BReach (v : Nat) (s : BoundedSemaphore κ) : Prop :=
  Relation.ReflTransGen BStep (BoundedSemaphore.init κ v) s

theorem BReach_inv {v : Nat} {s : BoundedSemaphore κ} (h : BReach v s) :
    s.sem.counter ≤ s.initial_value ∧ s.initial_value = v := by
  induction h with
  | refl =>
    constructor
    · show (Semaphore.init κ v).counter ≤ v
      rw [Semaphore.init_counter]
    · rfl
  | tail _ hstep ih =>
    obtain ⟨ihc, ihv⟩ := ih
    rename_i t t' _
    cases hstep with
    | acquire c cb =>
      exact ⟨le_trans (Semaphore.acquire_counter_le c t.sem cb) ihc, ihv⟩
    | release c =>
      unfold BoundedSemaphore.release
      by_cases hge : t.initial_value ≤ t.sem.counter
      · simp only [hge, if_pos]
        exact ⟨ihc, ihv⟩
      · simp only [hge, if_neg]
        refine ⟨?_, ihv⟩
        have := Semaphore.release_counter_le c t.sem
        show (Semaphore.release c t.sem).1.counter ≤ t.initial_value
        omega
    | wait c cb => exact ⟨ihc, ihv⟩
    | expireGetter i => exact ⟨ihc, ihv⟩
    | expireCond i => exact ⟨ihc, ihv⟩

/-- A queue together with its io_loop: the thunks pending for the next
scheduler turn, a trace of continuation invocations tagged with the turn
in which they ran (turn `0` is the synchronous registration phase), and
the current turn number. -/
structure World (α κ : Type) where
  q : Queue α κ
  pending : List (Sched κ α)
  trace : List (Nat × Eff κ α)
  turn : Nat
  deriving Repr

def World.init (α κ : Type) (m : Option Nat) : World α κ :=
  ⟨Queue.init α κ m, [], [], 0⟩

/-- Execute one registered thunk during turn `t`: `partial(cb, v)` fires
the continuation; `partial(putter.run, True)` runs the waiter of a
popped putter, whose wrapped callback re-registers the user continuation
with `True` for the following turn (the extra deferral). -/
def runSched (t : Nat)
    (acc : List (Nat × Eff κ α) × List (Sched κ α)) (sch : Sched κ α) :
    List (Nat × Eff κ α) × List (Sched κ α) :=
  match sch with
  | .next k v => (acc.1 ++ [(t, Eff.fired k v)], acc.2)
  | .wake (some pk) => (acc.1, acc.2 ++ [Sched.next pk (CVal.bool true)])
  | .wake none => acc

/-- One scheduler turn: run every thunk registered so far, in FIFO
order; thunks they register run on the following turn. -/
def runTurn (w : World α κ) : World α κ :=
  let t := w.turn + 1
  let p := w.pending.foldl (runSched t) ([], [])
  ⟨w.q, p.2, w.trace ++ p.1, t⟩

/-- `q.put` as a world transition. -/
def worldPut (d : Discipline α) (c : κ → Bool) (w : World α κ)
    (item : α) (cb : Option κ) : World α κ :=
  let r := Queue.put d c w.q item cb
  ⟨r.state, w.pending ++ r.scheds,
   w.trace ++ r.effs.map (fun e => (w.turn, e)), w.turn⟩

/-- `q.get` as a world transition, also returning the call's result. -/
def worldGet (d : Discipline α) (c : κ → Bool) (w : World α κ)
    (cb : Option κ) : World α κ × Except Err (Option α) :=
  let r := Queue.get d c w.q cb
  (⟨r.state, w.pending ++ r.scheds,
    w.trace ++ r.effs.map (fun e => (w.turn, e)), w.turn⟩, r.res)

/-- Putting a list of items, one non-blocking `put` per element. -/
def putAll (d : Discipline α) (s : Queue α κ) : List α → Queue α κ
  | [] => s
  | x :: xs => putAll d (Queue.put d (fun _ => true) s x none).state xs

/-- Draining a queue with `n` non-blocking `get` calls, collecting the
delivered items (stopping early if `get` raises). -/
def drainN (d : Discipline α) (s : Queue α κ) : Nat → List α
  | 0 => []
  | n + 1 =>
    let r := Queue.get d (fun _ => true) s none
    match r.res with
    | .ok (some a) => a :: drainN d r.state n
    | .ok none => []
    | .error _ => []

/-- Draining storage directly with `_get`. -/
def storeDrain (d : Discipline α) (q : List α) : Nat → List α
  | 0 => []
  | n + 1 =>
    match d.dget q with
    | some p => p.1 :: storeDrain d p.2 n
    | none => []

theorem Queue.put_room (d : Discipline α) (c : κ → Bool) (q : List α)
    (x : α) :
    Queue.put d c (⟨none, q, [], []⟩ : Queue α κ) x none =
      ⟨.ok (), ⟨none, d.dput q x, [], []⟩, [], []⟩ := by
  unfold Queue.put
  rfl

theorem Queue.get_avail (d : Discipline α) (c : κ → Bool) (q : List α)
    (h : q ≠ []) :
    Queue.get d c (⟨none, q, [], []⟩ : Queue α κ) none =
      ⟨.ok (some (d.dgetNE q h).1), ⟨none, (d.dgetNE q h).2, [], []⟩, [],
       []⟩ := by
  have hq : ¬ q.length = 0 := by
    intro h0
    exact h (List.length_eq_zero.mp h0)
  unfold Queue.get
  show (if h' : q.length = 0 then _ else _) = _
  rw [dif_neg hq]

theorem putAll_state (d : Discipline α) (xs : List α) (q : List α) :
    putAll d (⟨none, q, [], []⟩ : Queue α κ) xs =
      ⟨none, xs.foldl d.dput q, [], []⟩ := by
  induction xs generalizing q with
  | nil => rfl
  | cons x xs ih =>
    show putAll d (Queue.put d (fun _ => true)
      (⟨none, q, [], []⟩ : Queue α κ) x none).state xs = _
    rw [Queue.put_room]
    exact ih (d.dput q x)

theorem Queue.get_empty_nb (d : Discipline α) (c : κ → Bool) :
    Queue.get d c (⟨none, [], [], []⟩ : Queue α κ) none =
      ⟨.error .empty, ⟨none, [], [], []⟩, [], []⟩ := by
  unfold Queue.get
  rfl

theorem drainN_eq_storeDrain (d : Discipline α) (q : List α) (n : Nat) :
    drainN d (⟨none, q, [], []⟩ : Queue α κ) n = storeDrain d q n := by
  induction n generalizing q with
  | zero => rfl
  | succ n ih =>
    simp only [drainN]
    by_cases h : q = []
    · subst h
      rw [Queue.get_empty_nb]
      have hget : d.dget ([] : List α) = none := (d.dget_none []).mpr rfl
      simp only [storeDrain, hget]
    · rw [Queue.get_avail d (fun _ => true) q h]
      simp only [storeDrain, d.dget_dgetNE q h]
      rw [ih]

theorem foldl_dput_append (l : List α) (xs : List α) :
    xs.foldl (fun acc x => acc ++ [x]) l = l ++ xs := by
  induction xs generalizing l with
  | nil => simp
  | cons x xs ih => simp [ih]

theorem storeDrain_fifo (q : List α) :
    storeDrain (fifo α) q q.length = q := by
  induction q with
  | nil => rfl
  | cons a t ih =>
    show storeDrain (fifo α) (a :: t) (t.length + 1) = a :: t
    simp only [storeDrain]
    show a :: storeDrain (fifo α) t t.length = a :: t
    rw [ih]

theorem storeDrain_lifo (q : List α) :
    storeDrain (lifo α) q q.length = q.reverse := by
  induction q using List.reverseRecOn with
  | nil => rfl
  | append_singleton l a ih =>
    have hlen : (l ++ [a]).length = l.length + 1 := by simp
    rw [hlen]
    simp only [storeDrain]
    have hget : (lifo α).dget (l ++ [a]) = some (a, l) := by
      simp [lifo, List.getLast?_concat, List.dropLast_concat]
    rw [hget]
    show a :: storeDrain (lifo α) l l.length = (l ++ [a]).reverse
    rw [ih]
    simp

/-- The sequence of items an unbounded queue delivers after the elements
of `xs` are put (in order) and the queue is drained by non-blocking
`get` calls. -/
def delivered (d : Discipline α) (xs : List α) : List α :=
  drainN d (putAll d (Queue.init α Unit none) xs) xs.length

theorem delivered_fifo (xs : List α) : delivered (fifo α) xs = xs := by
  unfold delivered
  rw [show Queue.init α Unit none = ⟨none, [], [], []⟩ from rfl]
  rw [putAll_state, drainN_eq_storeDrain]
  have hfold : xs.foldl (fifo α).dput [] = xs := by
    have := foldl_dput_append ([] : List α) xs
    simpa [fifo] using this
  rw [hfold, storeDrain_fifo]

theorem delivered_lifo (xs : List α) : delivered (lifo α) xs = xs.reverse := by
  unfold delivered
  rw [show Queue.init α Unit none = ⟨none, [], [], []⟩ from rfl]
  rw [putAll_state, drainN_eq_storeDrain]
  have hfold : xs.foldl (lifo α).dput [] = xs := by
    have := foldl_dput_append ([] : List α) xs
    simpa [lifo] using this
  rw [hfold]
  have hlen : xs.length = xs.length := rfl
  rw [show storeDrain (lifo α) xs xs.length = xs.reverse from storeDrain_lifo xs]

/-! ## Python's `heapq`, used by `PriorityQueue`

`PriorityQueue._put` is `heapq.heappush`, `_get` is `heapq.heappop`.
The list is an implicit binary min-tree: children of index `i` sit at
`2*i+1` and `2*i+2`.  `_siftdown` bubbles the entry at `pos` up towards
`startpos`; `_siftup` moves the entry at `pos` down to a leaf along the
smaller-child path, then bubbles it back up. -/

/-- Parent index in the implicit binary-tree layout. -/
def parentIdx (j : Nat) : Nat :=
  (j - 1) / 2

/-- The loop of `heapq._siftdown`, with `newitem = heap[pos]` read out
once and written back when the loop stops.  In the source,
`parentpos = (pos - 1) >> 1` and `parent = heap[parentpos]`. -/
def siftdownAux [LinearOrder α] [Inhabited α] (heap : List α)
    (startpos pos : Nat) (newitem : α) : List α :=
  if h : startpos < pos then
    if newitem < heap.getD ((pos - 1) / 2) default then
      siftdownAux (heap.set pos (heap.getD ((pos - 1) / 2) default))
        startpos ((pos - 1) / 2) newitem
    else heap.set pos newitem
  else heap.set pos newitem
termination_by pos
decreasing_by
  have hd : (pos - 1) / 2 ≤ pos - 1 := Nat.div_le_self _ _
  omega

/-- `heapq._siftdown(heap, startpos, pos)`. -/
def heapqSiftdown [LinearOrder α] [Inhabited α] (heap : List α)
    (startpos pos : Nat) : List α :=
  siftdownAux heap startpos pos (heap.getD pos default)

/-- The while loop of `heapq._siftup`: follow the smaller-child path
down to a leaf, shifting each smaller child one level up.  Returns the
shifted list and the final position.  In the source,
`childpos = 2*pos + 1`, `rightpos = childpos + 1`, and `childpos` is
re-pointed at `rightpos` when the right child is not larger. -/
def siftupLoop [LinearOrder α] [Inhabited α] (heap : List α)
    (pos endpos : Nat) : List α × Nat :=
  if h : 2 * pos + 1 < endpos then
    if h2 : 2 * pos + 2 < endpos ∧
        ¬ heap.getD (2 * pos + 1) default < heap.getD (2 * pos + 2) default then
      siftupLoop (heap.set pos (heap.getD (2 * pos + 2) default))
        (2 * pos + 2) endpos
    else
      siftupLoop (heap.set pos (heap.getD (2 * pos + 1) default))
        (2 * pos + 1) endpos
  else (heap, pos)
termination_by endpos - pos
decreasing_by
  · have := h2.1
    omega
  · omega

/-- `heapq._siftup(heap, pos)`: run the loop, write `newitem` at the
final position, then `_siftdown` back towards the start position. -/
def heapqSiftup [LinearOrder α] [Inhabited α] (heap : List α)
    (pos : Nat) : List α :=
  let startpos := pos
  let newitem := heap.getD pos default
  let p := siftupLoop heap pos heap.length
  heapqSiftdown (p.1.set p.2 newitem) startpos p.2

/-- `heapq.heappush(heap, item)`: append then `_siftdown` from the new
last index (`len(heap) - 1` after the append). -/
def heappush [LinearOrder α] [Inhabited α] (heap : List α) (item : α) :
    List α :=
  heapqSiftdown (heap ++ [item]) 0 heap.length

/-- `heapq.heappop(heap)`: pop the last element; if the heap is still
non-empty, move the last element to the root and `_siftup(heap, 0)`,
returning the old root.  `none` models the `IndexError` on an empty
list. -/
def heappop [LinearOrder α] [Inhabited α] (heap : List α) :
    Option (α × List α) :=
  match heap.getLast? with
  | none => none
  | some lastelt =>
    let rest := heap.dropLast
    if rest.isEmpty then some (lastelt, rest)
    else some (rest.getD 0 default, heapqSiftup (rest.set 0 lastelt) 0)

theorem siftdownAux_length [LinearOrder α] [Inhabited α] (heap : List α)
    (startpos pos : Nat) (newitem : α) :
    (siftdownAux heap startpos pos newitem).length = heap.length := by
  induction heap, startpos, pos, newitem using siftdownAux.induct with
  | case1 heap startpos pos newitem h hlt ih =>
    rw [siftdownAux]
    rw [dif_pos h, if_pos hlt, ih]
    simp
  | case2 heap startpos pos newitem h hlt =>
    rw [siftdownAux]
    rw [dif_pos h, if_neg hlt]
    simp
  | case3 heap startpos pos newitem h =>
    rw [siftdownAux]
    rw [dif_neg h]
    simp

theorem siftupLoop_length [LinearOrder α] [Inhabited α] (heap : List α)
    (pos endpos : Nat) :
    (siftupLoop heap pos endpos).1.length = heap.length := by
  induction heap, pos, endpos using siftupLoop.induct with
  | case1 heap pos endpos h h2 ih =>
    rw [siftupLoop]
    rw [dif_pos h, dif_pos h2]
    rw [ih]
    simp
  | case2 heap pos endpos h h2 ih =>
    rw [siftupLoop]
    rw [dif_pos h, dif_neg h2]
    rw [ih]
    simp
  | case3 heap pos endpos h =>
    rw [siftupLoop]
    rw [dif_neg h]

theorem getD_set_self (l : List α) (i : Nat) (a d : α) (h : i < l.length) :
    (l.set i a).getD i d = a := by
  rw [List.getD_eq_getElem _ _ (by simpa using h)]
  exact List.getElem_set_self (by simpa using h)

theorem getD_set_ne (l : List α) (i j : Nat) (a d : α) (h : i ≠ j) :
    (l.set i a).getD j d = l.getD j d := by
  by_cases hj : j < l.length
  · rw [List.getD_eq_getElem _ _ (by simpa using hj),
      List.getD_eq_getElem _ _ hj]
    exact List.getElem_set_ne h (by simpa using hj)
  · rw [List.getD_eq_default _ _ (by simpa using Nat.le_of_not_lt hj),
      List.getD_eq_default _ _ (Nat.le_of_not_lt hj)]

theorem set_getD_self (l : List α) (i : Nat) (d : α) (h : i < l.length) :
    l.set i (l.getD i d) = l := by
  induction l generalizing i with
  | nil => simp at h
  | cons a t ih =>
    cases i with
    | zero => simp [List.getD_cons_zero]
    | succ n =>
      simp only [List.getD_cons_succ, List.set_cons_succ]
      rw [ih n (by simpa using h)]

theorem set_perm_cons (t : List α) (j : Nat) (hj : j < t.length) (a d : α) :
    List.Perm (t.getD j d :: t.set j a) (a :: t) := by
  induction t generalizing j with
  | nil => simp at hj
  | cons b t2 ih =>
    cases j with
    | zero =>
      simp only [List.getD_cons_zero, List.set_cons_zero]
      exact List.Perm.swap a b t2
    | succ n =>
      simp only [List.getD_cons_succ, List.set_cons_succ]
      exact (List.Perm.swap b (t2.getD n d) (t2.set n a)).trans
        (((ih n (by simpa using hj)).cons b).trans (List.Perm.swap a b t2))

theorem set_swap_perm (l : List α) (i j : Nat) (hij : i < j)
    (hj : j < l.length) (d : α) :
    List.Perm ((l.set i (l.getD j d)).set j (l.getD i d)) l := by
  induction l generalizing i j with
  | nil => simp at hj
  | cons a t ih =>
    cases i with
    | zero =>
      obtain ⟨n, rfl⟩ : ∃ n, j = n + 1 := ⟨j - 1, by omega⟩
      simp only [List.getD_cons_succ, List.getD_cons_zero,
        List.set_cons_zero, List.set_cons_succ]
      exact set_perm_cons t n (by simpa using hj) a d
    | succ m =>
      obtain ⟨n, rfl⟩ : ∃ n, j = n + 1 := ⟨j - 1, by omega⟩
      simp only [List.getD_cons_succ, List.set_cons_succ]
      exact (ih m n (by omega) (by simpa using hj)).cons a

theorem parentIdx_lt (j : Nat) (h : 0 < j) : parentIdx j < j := by
  unfold parentIdx
  have := Nat.div_le_self (j - 1) 2
  omega

theorem parentIdx_children (i j : Nat) (h : 0 < j) :
    parentIdx j = i ↔ j = 2 * i + 1 ∨ j = 2 * i + 2 := by
  unfold parentIdx
  omega

/-- The min-heap shape invariant of the implicit tree: every non-root
entry is at least its parent. -/
def IsHeap [LinearOrder α] [Inhabited α] (l : List α) : Prop :=
  ∀ j, 0 < j → j < l.length →
    l.getD (parentIdx j) default ≤ l.getD j default

/-- Precondition of the `_siftdown` bubble-up phase at `pos`: every
parent/child edge not entering `pos` holds, and the (grand)parent of
`pos` already bounds the children of `pos`. -/
def AHup [LinearOrder α] [Inhabited α] (l : List α) (pos : Nat) : Prop :=
  (∀ j, 0 < j → j < l.length → j ≠ pos →
    l.getD (parentIdx j) default ≤ l.getD j default) ∧
  (∀ j, 0 < j → j < l.length → parentIdx j = pos → 0 < pos →
    l.getD (parentIdx pos) default ≤ l.getD j default)

theorem siftdownAux_spec [LinearOrder α] [Inhabited α] :
    ∀ (heap : List α) (startpos pos : Nat) (newitem : α), startpos = 0 →
      pos < heap.length → AHup (heap.set pos newitem) pos →
      IsHeap (siftdownAux heap startpos pos newitem) ∧
      List.Perm (siftdownAux heap startpos pos newitem)
        (heap.set pos newitem) := by
  intro heap startpos pos newitem
  induction heap, startpos, pos, newitem using siftdownAux.induct with
  | case1 heap startpos pos newitem h hlt ih =>
    intro hs hpos hAH
    subst hs
    obtain ⟨comp1, comp2⟩ := hAH
    rw [siftdownAux, dif_pos h, if_pos hlt]
    have hpos0 : 0 < pos := h
    have hppd : parentIdx pos = (pos - 1) / 2 := rfl
    have hpplt : (pos - 1) / 2 < pos := by rw [← hppd]; exact parentIdx_lt pos hpos0
    have hpplen : (pos - 1) / 2 < heap.length := lt_trans hpplt hpos
    -- abbreviations
    set pp := (pos - 1) / 2 with hpp
    set v := heap.set pos newitem with hv
    have hlenv : v.length = heap.length := by rw [hv]; simp
    have hvpp : v.getD pp default = heap.getD pp default := by
      rw [hv]; exact getD_set_ne heap pos pp newitem default (by omega)
    have hvpos : v.getD pos default = newitem := by
      rw [hv]; exact getD_set_self heap pos newitem default hpos
    -- the recursive call's virtual array is the swap of v at pp and pos
    have hswap : (heap.set pos (heap.getD pp default)).set pp newitem =
        (v.set pp (v.getD pos default)).set pos (v.getD pp default) := by
      rw [hvpos, hvpp]
      rw [List.set_comm _ _ _ (by omega : pp ≠ pos)]
      rw [hv, List.set_set]
    have hperm0 : List.Perm
        ((heap.set pos (heap.getD pp default)).set pp newitem) v := by
      rw [hswap]
      exact set_swap_perm v pp pos hpplt (by rw [hlenv]; exact hpos) default
    -- values of the swapped array
    have hlen' : ((heap.set pos (heap.getD pp default)).set pp newitem).length
        = heap.length := by simp
    have hwpp : ((heap.set pos (heap.getD pp default)).set pp newitem).getD
        pp default = newitem :=
      getD_set_self _ pp newitem default (by simp [hpplen])
    have hwpos : ((heap.set pos (heap.getD pp default)).set pp newitem).getD
        pos default = heap.getD pp default := by
      rw [getD_set_ne _ pp pos newitem default (by omega)]
      exact getD_set_self heap pos _ default hpos
    have hwother : ∀ j, j ≠ pp → j ≠ pos →
        ((heap.set pos (heap.getD pp default)).set pp newitem).getD j default
          = v.getD j default := by
      intro j hjp hjq
      rw [getD_set_ne _ pp j newitem default (fun hh => hjp hh.symm),
        getD_set_ne _ pos j _ default (fun hh => hjq hh.symm), hv,
        getD_set_ne heap pos j newitem default (fun hh => hjq hh.symm)]
    have hltv : newitem < v.getD pp default := by rw [hvpp]; exact hlt
    -- establish the precondition at pp for the recursive call
    have hAH' : AHup ((heap.set pos (heap.getD pp default)).set pp newitem) pp := by
      constructor
      · intro j hj0 hjlen hjpp
        rw [hlen'] at hjlen
        by_cases hjpos : j = pos
        · subst hjpos
          have hpj : parentIdx j = pp := hppd
          rw [hpj, hwpp, hwpos]
          exact (le_of_lt hltv).trans_eq hvpp
        · by_cases hpj : parentIdx j = pp
          · rw [hpj, hwpp, hwother j hjpp hjpos]
            have hedge : v.getD pp default ≤ v.getD j default := by
              have := comp1 j hj0 (by rw [hlenv]; exact hjlen) hjpos
              rw [hpj] at this
              exact this
            exact le_of_lt (lt_of_lt_of_le hltv hedge)
          · by_cases hpjpos : parentIdx j = pos
            · rw [hpjpos, hwpos, hwother j hjpp hjpos]
              have := comp2 j hj0 (by rw [hlenv]; exact hjlen) hpjpos hpos0
              rw [hppd] at this
              rw [← hvpp]
              exact this
            · rw [hwother j hjpp hjpos, hwother (parentIdx j) hpj hpjpos]
              exact comp1 j hj0 (by rw [hlenv]; exact hjlen) hjpos
      · intro j hj0 hjlen hpj hpp0
        rw [hlen'] at hjlen
        have hppj : parentIdx pp ≠ pp := by
          have := parentIdx_lt pp hpp0
          omega
        have hppjpos : parentIdx pp ≠ pos := by
          have := parentIdx_lt pp hpp0
          omega
        rw [hwother (parentIdx pp) hppj hppjpos]
        have hgp : v.getD (parentIdx pp) default ≤ v.getD pp default := by
          have := comp1 pp hpp0 (by rw [hlenv]; exact hpplen) (by omega)
          exact this
        by_cases hjpos : j = pos
        · subst hjpos
          rw [hwpos, ← hvpp]
          exact hgp
        · have hjpp : j ≠ pp := by
            have := parentIdx_lt j hj0
            omega
          rw [hwother j hjpp hjpos]
          have hedge : v.getD pp default ≤ v.getD j default := by
            have := comp1 j hj0 (by rw [hlenv]; exact hjlen) hjpos
            rw [hpj] at this
            exact this
          exact le_trans hgp hedge
    have := ih rfl (by simp [hpplen]) hAH'
    exact ⟨this.1, this.2.trans hperm0⟩
  | case2 heap startpos pos newitem h hlt =>
    intro hs hpos hAH
    subst hs
    obtain ⟨comp1, comp2⟩ := hAH
    rw [siftdownAux, dif_pos h, if_neg hlt]
    refine ⟨?_, List.Perm.refl _⟩
    intro j hj0 hjlen
    simp only [List.length_set] at hjlen
    by_cases hjpos : j = pos
    · subst hjpos
      have hple : heap.getD ((j - 1) / 2) default ≤ newitem := not_lt.mp hlt
      have hppj : parentIdx j ≠ j := by
        have := parentIdx_lt j hj0
        omega
      rw [getD_set_self heap j newitem default hpos,
        getD_set_ne heap j (parentIdx j) newitem default (fun hh => hppj hh.symm)]
      exact hple
    · exact comp1 j hj0 (by simpa using hjlen) hjpos
  | case3 heap startpos pos newitem h =>
    intro hs hpos hAH
    subst hs
    obtain ⟨comp1, comp2⟩ := hAH
    rw [siftdownAux, dif_neg h]
    refine ⟨?_, List.Perm.refl _⟩
    intro j hj0 hjlen
    simp only [List.length_set] at hjlen
    have hpos0 : pos = 0 := by omega
    subst hpos0
    exact comp1 j hj0 (by simpa using hjlen) (by omega)

/-- Precondition of the `_siftup` descent phase at `pos`: every
parent/child edge not touching `pos` holds, and the parent of `pos`
already bounds the children of `pos`. -/
def AHside [LinearOrder α] [Inhabited α] (l : List α) (pos : Nat) : Prop :=
  (∀ j, 0 < j → j < l.length → j ≠ pos → parentIdx j ≠ pos →
    l.getD (parentIdx j) default ≤ l.getD j default) ∧
  (∀ j, 0 < j → j < l.length → parentIdx j = pos → 0 < pos →
    l.getD (parentIdx pos) default ≤ l.getD j default)

theorem siftupStep [LinearOrder α] [Inhabited α] (heap : List α)
    (pos c : Nat) (newitem : α) (hlen : pos < heap.length)
    (hc : c < heap.length) (hc0 : 0 < c) (hcchild : parentIdx c = pos)
    (hmin : ∀ s, parentIdx s = pos → 0 < s → s < heap.length →
      heap.getD c default ≤ heap.getD s default)
    (hAH : AHside (heap.set pos newitem) pos) :
    AHside ((heap.set pos (heap.getD c default)).set c newitem) c ∧
    List.Perm ((heap.set pos (heap.getD c default)).set c newitem)
      (heap.set pos newitem) ∧ pos < c := by
  obtain ⟨comp1, comp2⟩ := hAH
  have hposc : pos < c := by
    have := parentIdx_lt c hc0
    omega
  set u := heap.set pos newitem with hu
  have hulen : u.length = heap.length := by rw [hu]; simp
  have huc : u.getD c default = heap.getD c default := by
    rw [hu]; exact getD_set_ne heap pos c newitem default (by omega)
  have hupos : u.getD pos default = newitem := by
    rw [hu]; exact getD_set_self heap pos newitem default hlen
  have huother : ∀ j, j ≠ pos → u.getD j default = heap.getD j default := by
    intro j hj
    rw [hu]; exact getD_set_ne heap pos j newitem default (fun hh => hj hh.symm)
  set w := (heap.set pos (heap.getD c default)).set c newitem with hw
  have hwlen : w.length = heap.length := by rw [hw]; simp
  have hwc : w.getD c default = newitem :=
    getD_set_self _ c newitem default (by simp [hc])
  have hwpos : w.getD pos default = heap.getD c default := by
    rw [hw, getD_set_ne _ c pos newitem default (by omega)]
    exact getD_set_self heap pos _ default hlen
  have hwother : ∀ j, j ≠ pos → j ≠ c → w.getD j default = u.getD j default := by
    intro j hjp hjc
    rw [hw, getD_set_ne _ c j newitem default (fun hh => hjc hh.symm),
      getD_set_ne heap pos j _ default (fun hh => hjp hh.symm)]
    exact (huother j hjp).symm
  have hswap : w = (u.set pos (u.getD c default)).set c (u.getD pos default) := by
    rw [hupos, huc, hw, hu, List.set_set]
  have hperm : List.Perm w u := by
    rw [hswap]
    exact set_swap_perm u pos c hposc (by rw [hulen]; exact hc) default
  refine ⟨⟨?_, ?_⟩, hperm, hposc⟩
  · intro j hj0 hjlen hjc hpjc
    rw [hwlen] at hjlen
    by_cases hjpos : j = pos
    · subst hjpos
      have hj00 : 0 < j := hj0
      have hgpj : parentIdx j ≠ j := by
        have := parentIdx_lt j hj0
        omega
      have hgpc : parentIdx j ≠ c := by
        have := parentIdx_lt j hj0
        omega
      rw [hwpos, hwother (parentIdx j) (fun hh => hgpj hh) hgpc]
      have := comp2 c hc0 (by rw [hulen]; exact hc) hcchild hj0
      rw [← huc]
      exact this
    · by_cases hpj : parentIdx j = pos
      · rw [hwother j hjpos hjc]
        rw [hpj, hwpos]
        rw [huother j hjpos]
        exact hmin j hpj hj0 hjlen
      · rw [hwother j hjpos hjc, hwother (parentIdx j) hpj hpjc]
        exact comp1 j hj0 (by rw [hulen]; exact hjlen) hjpos hpj
  · intro j hj0 hjlen hpj _
    rw [hwlen] at hjlen
    have hjc : j ≠ c := by
      have := parentIdx_lt j hj0
      omega
    have hjpos : j ≠ pos := by
      have := parentIdx_lt j hj0
      omega
    rw [hcchild, hwpos, hwother j hjpos hjc]
    have := comp1 j hj0 (by rw [hulen]; exact hjlen) hjpos (by rw [hpj]; omega)
    rw [hpj] at this
    rw [← huc]
    exact this

theorem siftupLoop_spec [LinearOrder α] [Inhabited α] :
    ∀ (heap : List α) (pos endpos : Nat) (newitem : α),
      endpos = heap.length → pos < heap.length →
      AHside (heap.set pos newitem) pos →
      (siftupLoop heap pos endpos).2 < heap.length ∧
      endpos ≤ 2 * (siftupLoop heap pos endpos).2 + 1 ∧
      AHside ((siftupLoop heap pos endpos).1.set
        (siftupLoop heap pos endpos).2 newitem)
        (siftupLoop heap pos endpos).2 ∧
      List.Perm ((siftupLoop heap pos endpos).1.set
        (siftupLoop heap pos endpos).2 newitem) (heap.set pos newitem) := by
  intro heap pos endpos
  induction heap, pos, endpos using siftupLoop.induct with
  | case1 heap pos endpos h h2 ih =>
    intro newitem hend hpos hAH
    subst hend
    have hstep := siftupStep heap pos (2 * pos + 2) newitem hpos h2.1
      (by omega) (by unfold parentIdx; omega) ?hmin hAH
    case hmin =>
      intro s hs hs0 hslen
      have : s = 2 * pos + 1 ∨ s = 2 * pos + 2 :=
        (parentIdx_children pos s hs0).mp hs
      rcases this with hs1 | hs2
      · subst hs1
        exact le_of_not_lt h2.2
      · subst hs2
        exact le_refl _
    obtain ⟨hAH', hperm', hposc⟩ := hstep
    rw [siftupLoop, dif_pos h, dif_pos h2]
    have hlen' : (heap.set pos (heap.getD (2 * pos + 2) default)).length
        = heap.length := by simp
    have := ih newitem (by rw [hlen']) (by rw [hlen']; exact h2.1) hAH'
    refine ⟨lt_of_lt_of_eq this.1 hlen', this.2.1,
      this.2.2.1, this.2.2.2.trans hperm'⟩
  | case2 heap pos endpos h h2 ih =>
    intro newitem hend hpos hAH
    subst hend
    have hchild : 2 * pos + 1 < heap.length := h
    have hstep := siftupStep heap pos (2 * pos + 1) newitem hpos hchild
      (by omega) (by unfold parentIdx; omega) ?hmin hAH
    case hmin =>
      intro s hs hs0 hslen
      have : s = 2 * pos + 1 ∨ s = 2 * pos + 2 :=
        (parentIdx_children pos s hs0).mp hs
      rcases this with hs1 | hs2
      · subst hs1
        exact le_refl _
      · subst hs2
        rcases not_and_or.mp h2 with hna | hnb
        · omega
        · exact le_of_lt (not_not.mp hnb)
    obtain ⟨hAH', hperm', hposc⟩ := hstep
    rw [siftupLoop, dif_pos h, dif_neg h2]
    have hlen' : (heap.set pos (heap.getD (2 * pos + 1) default)).length
        = heap.length := by simp
    have := ih newitem (by rw [hlen']) (by rw [hlen']; exact hchild) hAH'
    refine ⟨lt_of_lt_of_eq this.1 hlen', this.2.1,
      this.2.2.1, this.2.2.2.trans hperm'⟩
  | case3 heap pos endpos h =>
    intro newitem hend hpos hAH
    subst hend
    rw [siftupLoop, dif_neg h]
    exact ⟨hpos, by omega, hAH, List.Perm.refl _⟩

theorem getD_append_lt (l l2 : List α) (j : Nat) (d : α) (h : j < l.length) :
    (l ++ l2).getD j d = l.getD j d := by
  rw [List.getD_eq_getElem _ _ (by simp; omega), List.getD_eq_getElem _ _ h]
  exact List.getElem_append_left h

/-- Precondition of `_siftup(heap, 0)` as used by `heappop`: every
parent/child edge except those out of the root holds. -/
def AHroot [LinearOrder α] [Inhabited α] (l : List α) : Prop :=
  ∀ j, 0 < j → j < l.length → parentIdx j ≠ 0 →
    l.getD (parentIdx j) default ≤ l.getD j default

theorem heapqSiftup_spec [LinearOrder α] [Inhabited α] (l : List α)
    (hne : l ≠ []) (hAH : AHroot l) :
    IsHeap (heapqSiftup l 0) ∧ List.Perm (heapqSiftup l 0) l := by
  have hlen0 : 0 < l.length := List.length_pos.mpr hne
  have hset : l.set 0 (l.getD 0 default) = l := set_getD_self l 0 default hlen0
  have hside : AHside (l.set 0 (l.getD 0 default)) 0 := by
    rw [hset]
    exact ⟨fun j hj0 hjlen _ hpj => hAH j hj0 hjlen hpj,
      fun j _ _ _ h00 => absurd h00 (by omega)⟩
  have hloop := siftupLoop_spec l 0 l.length (l.getD 0 default) rfl hlen0 hside
  obtain ⟨hr2, hleaf, hAH2, hperm2⟩ := hloop
  rw [hset] at hperm2
  set r := siftupLoop l 0 l.length with hr
  have hlenr : r.1.length = l.length := siftupLoop_length l 0 l.length
  show IsHeap (heapqSiftdown (r.1.set r.2 (l.getD 0 default)) 0 r.2) ∧
    List.Perm (heapqSiftdown (r.1.set r.2 (l.getD 0 default)) 0 r.2) l
  unfold heapqSiftdown
  have hget : (r.1.set r.2 (l.getD 0 default)).getD r.2 default
      = l.getD 0 default :=
    getD_set_self r.1 r.2 _ default (by rw [hlenr]; exact hr2)
  rw [hget]
  have hAHup : AHup (r.1.set r.2 (l.getD 0 default)) r.2 := by
    constructor
    · intro j hj0 hjlen hj
      have hjlen' : j < l.length := by
        simpa [hlenr] using hjlen
      by_cases hpj : parentIdx j = r.2
      · exfalso
        have := (parentIdx_children r.2 j hj0).mp hpj
        omega
      · exact hAH2.1 j hj0 hjlen hj hpj
    · exact hAH2.2
  have hspec := siftdownAux_spec (r.1.set r.2 (l.getD 0 default)) 0 r.2
    (l.getD 0 default) rfl (by rw [List.length_set, hlenr]; exact hr2)
    (by rw [List.set_set]; exact hAHup)
  refine ⟨hspec.1, hspec.2.trans ?_⟩
  rw [List.set_set]
  exact hperm2

theorem heappush_spec [LinearOrder α] [Inhabited α] (l : List α) (x : α)
    (hl : IsHeap l) :
    IsHeap (heappush l x) ∧ List.Perm (heappush l x) (x :: l) := by
  unfold heappush heapqSiftdown
  have hgetx : (l ++ [x]).getD l.length default = x := by
    rw [List.getD_eq_getElem _ _ (by simp)]
    exact List.getElem_concat_length l x l.length rfl (by simp)
  rw [hgetx]
  have hsetx : (l ++ [x]).set l.length x = l ++ [x] := by
    rw [List.set_append_right _ _ (le_refl l.length)]
    simp
  have hAH : AHup ((l ++ [x]).set l.length x) l.length := by
    rw [hsetx]
    constructor
    · intro j hj0 hjlen hj
      have hjl : j < l.length := by
        simp at hjlen
        omega
      have hpjl : parentIdx j < l.length := lt_trans (parentIdx_lt j hj0) hjl
      rw [getD_append_lt l [x] j default hjl,
        getD_append_lt l [x] (parentIdx j) default hpjl]
      exact hl j hj0 hjl
    · intro j hj0 hjlen hpj _
      exfalso
      have := (parentIdx_children l.length j hj0).mp hpj
      simp at hjlen
      omega
  have hspec := siftdownAux_spec (l ++ [x]) 0 l.length x rfl (by simp) hAH
  refine ⟨hspec.1, hspec.2.trans ?_⟩
  rw [hsetx]
  exact List.perm_append_singleton x l

theorem IsHeap.root_le [LinearOrder α] [Inhabited α] {l : List α}
    (hl : IsHeap l) : ∀ j, j < l.length →
    l.getD 0 default ≤ l.getD j default := by
  intro j
  induction j using Nat.strong_induction_on with
  | _ j ih =>
    intro hj
    rcases Nat.eq_zero_or_pos j with h0 | hpos
    · subst h0
      exact le_refl _
    · have hp := parentIdx_lt j hpos
      exact le_trans (ih (parentIdx j) hp (lt_trans hp hj)) (hl j hpos hj)

theorem heappop_spec [LinearOrder α] [Inhabited α] (l : List α)
    (hl : IsHeap l) (hne : l ≠ []) :
    ∃ l', heappop l = some (l.getD 0 default, l') ∧ IsHeap l' ∧
      List.Perm (l.getD 0 default :: l') l := by
  have hlast : l.getLast? = some (l.getLast hne) := List.getLast?_eq_getLast l hne
  have hdecomp : l.dropLast ++ [l.getLast hne] = l :=
    List.dropLast_concat_getLast hne
  unfold heappop
  rw [hlast]
  dsimp only
  by_cases hrest : l.dropLast.isEmpty
  · rw [if_pos hrest]
    have hnil : l.dropLast = [] := List.isEmpty_iff.mp hrest
    have hsing : l = [l.getLast hne] := by
      conv_lhs => rw [← hdecomp, hnil]
      simp
    refine ⟨l.dropLast, ?_, ?_, ?_⟩
    · have : l.getD 0 default = l.getLast hne := by
        conv_lhs => rw [hsing]
        rfl
      rw [this]
    · intro j hj0 hjlen
      rw [hnil] at hjlen
      simp at hjlen
    · rw [hnil]
      conv_rhs => rw [hsing]
      have : l.getD 0 default = l.getLast hne := by
        conv_lhs => rw [hsing]
        rfl
      rw [this]
  · rw [if_neg hrest]
    have hrne : l.dropLast ≠ [] := by
      intro hc
      rw [hc] at hrest
      simp at hrest
    have hrlen : 0 < l.dropLast.length := List.length_pos.mpr hrne
    have hllen : l.dropLast.length + 1 = l.length := by
      conv_rhs => rw [← hdecomp]
      simp
    have hget0 : l.dropLast.getD 0 default = l.getD 0 default := by
      conv_rhs => rw [← hdecomp]
      rw [getD_append_lt _ _ 0 default hrlen]
    have hgetj : ∀ j, j < l.dropLast.length →
        l.dropLast.getD j default = l.getD j default := by
      intro j hj
      conv_rhs => rw [← hdecomp]
      rw [getD_append_lt _ _ j default hj]
    have hAH : AHroot (l.dropLast.set 0 (l.getLast hne)) := by
      intro j hj0 hjlen hpj
      rw [List.length_set] at hjlen
      rw [getD_set_ne _ 0 j _ default (by omega),
        getD_set_ne _ 0 (parentIdx j) _ default (fun hh => hpj hh.symm)]
      rw [hgetj j hjlen, hgetj (parentIdx j)
        (lt_trans (parentIdx_lt j hj0) hjlen)]
      exact hl j hj0 (by omega)
    have hsne : l.dropLast.set 0 (l.getLast hne) ≠ [] := by
      intro hc
      rw [List.set_eq_nil_iff] at hc
      exact hrne hc
    obtain ⟨hheap, hperm⟩ := heapqSiftup_spec _ hsne hAH
    refine ⟨heapqSiftup (l.dropLast.set 0 (l.getLast hne)) 0, by rw [hget0],
      hheap, ?_⟩
    refine (hperm.cons _).trans ?_
    -- l.getD 0 :: l.dropLast.set 0 lastelt ~ l
    obtain ⟨r0, t, hrt⟩ : ∃ r0 t, l.dropLast = r0 :: t := by
      cases hdl : l.dropLast with
      | nil => exact absurd hdl hrne
      | cons a b => exact ⟨a, b, rfl⟩
    rw [hrt]
    have hr0 : r0 = l.getD 0 default := by
      rw [← hget0, hrt]
      rfl
    rw [List.set_cons_zero, ← hr0]
    have hstep : List.Perm (r0 :: l.getLast hne :: t)
        (r0 :: (t ++ [l.getLast hne])) :=
      (((List.perm_append_singleton (l.getLast hne) t).symm).cons r0)
    refine hstep.trans ?_
    have : r0 :: (t ++ [l.getLast hne]) = (r0 :: t) ++ [l.getLast hne] := rfl
    rw [this, ← hrt, hdecomp]

theorem heapqSiftup_length [LinearOrder α] [Inhabited α] (l : List α)
    (pos : Nat) : (heapqSiftup l pos).length = l.length := by
  unfold heapqSiftup heapqSiftdown
  rw [siftdownAux_length, List.length_set, siftupLoop_length]

/-- The min-heap discipline of `PriorityQueue`
(`_put` = `heappush`, `_get` = `heappop`). -/
def prio (α : Type) [LinearOrder α] [Inhabited α] : Discipline α where
  dput := heappush
  dget := heappop
  dput_len l x := by
    unfold heappush heapqSiftdown
    rw [siftdownAux_length]
    simp
  dget_none l := by
    unfold heappop
    cases h : l.getLast? with
    | none => simpa using List.getLast?_eq_none_iff.mp h
    | some a =>
      dsimp only
      constructor
      · intro hc
        split at hc <;> simp at hc
      · intro hnil
        subst hnil
        simp at h
  dget_len l a l' h := by
    unfold heappop at h
    cases hlast : l.getLast? with
    | none => rw [hlast] at h; simp at h
    | some lastelt =>
      rw [hlast] at h
      dsimp only at h
      have hlne : l ≠ [] := by
        intro hnil
        subst hnil
        simp at hlast
      have hlen : l.dropLast.length + 1 = l.length := by
        have := List.length_dropLast l
        have hpos := List.length_pos.mpr hlne
        omega
      split at h
      · simp at h
        rw [← h.2]
        exact hlen
      · simp at h
        rw [← h.2]
        rw [heapqSiftup_length, List.length_set]
        exact hlen

theorem prio_dput (α : Type) [LinearOrder α] [Inhabited α] :
    (prio α).dput = heappush := rfl

theorem prio_dget (α : Type) [LinearOrder α] [Inhabited α] :
    (prio α).dget = heappop := rfl

theorem IsHeap_nil [LinearOrder α] [Inhabited α] : IsHeap ([] : List α) := by
  intro j hj0 hjlen
  simp at hjlen

theorem storeDrain_prio [LinearOrder α] [Inhabited α] (q : List α)
    (hq : IsHeap q) :
    List.Sorted (· ≤ ·) (storeDrain (prio α) q q.length) ∧
    List.Perm (storeDrain (prio α) q q.length) q := by
  generalize hn : q.length = n
  induction n generalizing q with
  | zero =>
    have : q = [] := List.length_eq_zero.mp hn
    subst this
    exact ⟨List.sorted_nil, List.Perm.refl _⟩
  | succ n ih =>
    have hne : q ≠ [] := by
      intro hc
      subst hc
      simp at hn
    obtain ⟨q', hpop, hheap', hperm⟩ := heappop_spec q hq hne
    have hdget : (prio α).dget q = some (q.getD 0 default, q') := by
      rw [prio_dget]
      exact hpop
    simp only [storeDrain, hdget]
    have hlen' : q'.length = n := by
      have := hperm.length_eq
      simp at this
      omega
    have hrec := ih q' hheap' hlen'
    constructor
    · rw [List.sorted_cons]
      refine ⟨?_, hrec.1⟩
      intro b hb
      have hbq' : b ∈ q' := (hrec.2.mem_iff).mp hb
      have hbq : b ∈ q := hperm.mem_iff.mp (List.mem_cons_of_mem _ hbq')
      obtain ⟨i, hi, hib⟩ := List.mem_iff_getElem.mp hbq
      have hroot := hq.root_le i hi
      rw [List.getD_eq_getElem q default hi, hib] at hroot
      exact hroot
    · exact (hrec.2.cons _).trans hperm

theorem foldl_heappush_spec [LinearOrder α] [Inhabited α] (xs : List α)
    (l : List α) (hl : IsHeap l) :
    IsHeap (xs.foldl heappush l) ∧
    List.Perm (xs.foldl heappush l) (xs ++ l) := by
  induction xs generalizing l with
  | nil => exact ⟨hl, by simp⟩
  | cons x xs ih =>
    have hx := heappush_spec l x hl
    have hrec := ih (heappush l x) hx.1
    refine ⟨hrec.1, ?_⟩
    refine hrec.2.trans ?_
    refine (List.Perm.append_left xs hx.2).trans ?_
    exact List.perm_middle

theorem delivered_prio [LinearOrder α] [Inhabited α] (xs : List α) :
    List.Sorted (· ≤ ·) (delivered (prio α) xs) ∧
    List.Perm (delivered (prio α) xs) xs := by
  unfold delivered
  rw [show Queue.init α Unit none = ⟨none, [], [], []⟩ from rfl]
  rw [putAll_state, drainN_eq_storeDrain]
  rw [prio_dput]
  have hfold := foldl_heappush_spec xs [] IsHeap_nil
  have hlenf : (xs.foldl heappush []).length = xs.length := by
    have := hfold.2.length_eq
    simpa using this
  rw [← hlenf]
  have hsd := storeDrain_prio (xs.foldl heappush []) hfold.1
  refine ⟨hsd.1, hsd.2.trans ?_⟩
  refine hfold.2.trans ?_
  simp

/-! ## Concrete scenarios

Continuation ids are natural numbers; `allCallable` models passing
genuine callables, `notCallable` models passing non-callable objects. -/

def allCallable : Nat → Bool := fun _ => true

def notCallable : Nat → Bool := fun _ => false

/-- Scenario of spec §8.2: `q = Queue(maxsize=1)`; `q.put(1)`. -/
def chanW1 : World Nat Nat :=
  worldPut (fifo Nat) allCallable (World.init Nat Nat (some 1)) 1 none

/-- … then the blocking `q.put(2, cb_p)` with `cb_p = 1`. -/
def chanW2 : World Nat Nat :=
  worldPut (fifo Nat) allCallable chanW1 2 (some 1)

/-- … then the getter registration `q.get(cb_g)` with `cb_g = 0`. -/
def chanW3 : World Nat Nat :=
  (worldGet (fifo Nat) allCallable chanW2 (some 0)).1

/-- … then two scheduler turns. -/
def chanW5 : World Nat Nat :=
  runTurn (runTurn chanW3)

/-- Scenario of spec §8.5: `s = Semaphore(2)` and four non-blocking
`acquire()` calls around one `release()`. -/
def semC7a1 : AcqR Nat :=
  Semaphore.acquire allCallable (Semaphore.init Nat 2) none

def semC7a2 : AcqR Nat :=
  Semaphore.acquire allCallable semC7a1.state none

def semC7a3 : AcqR Nat :=
  Semaphore.acquire allCallable semC7a2.state none

def semC7s4 : Semaphore Nat :=
  (Semaphore.release allCallable semC7a3.state).1

def semC7a4 : AcqR Nat :=
  Semaphore.acquire allCallable semC7s4 none

/-- `Semaphore(0)` with a parked callback-bearing `acquire` (user
continuation `7`)… -/
def semC10a : AcqR Nat :=
  Semaphore.acquire allCallable (Semaphore.init Nat 0) (some 7)

/-- … then `release()` while the acquire is parked… -/
def semC10r : Semaphore Nat × List (Eff (SemCb Nat) Unit) ×
    List (Sched (SemCb Nat) Unit) :=
  Semaphore.release allCallable semC10a.state

/-- … then `wait(cb)` (user continuation `11`) registered afterwards. -/
def semC10w : Except Err Unit × Semaphore Nat × List (Sched (SemCb Nat) Unit) :=
  Semaphore.wait allCallable semC10r.1 11

/-- `Queue(maxsize=1)` after `put(1)` and a parked `put(2, cb)`:
storage and putters are simultaneously non-empty. -/
def c3state : Queue Nat Nat :=
  (Queue.put (fifo Nat) allCallable
    (Queue.put (fifo Nat) allCallable (Queue.init Nat Nat (some 1)) 1
      none).state 2 (some 5)).state

/-- An unbounded queue holding one item (obtained by a single put). -/
def c9state : Queue Nat Nat :=
  (Queue.put (fifo Nat) allCallable (Queue.init Nat Nat none) 5 none).state

theorem pruneGetters_eq_nil_iff (l : List (Option κ)) :
    pruneGetters l = [] ↔ ∀ g ∈ l, g = none := by
  unfold pruneGetters
  rw [List.dropWhile_eq_nil_iff]
  constructor
  · intro h g hg
    have := h g hg
    cases g with
    | none => rfl
    | some k => simp at this
  · intro h g hg
    rw [h g hg]
    rfl

theorem prunePutters_eq_nil_iff (l : List (α × Option κ)) :
    prunePutters l = [] ↔ ∀ p ∈ l, p.2 = none := by
  unfold prunePutters
  rw [List.dropWhile_eq_nil_iff]
  constructor
  · intro h p hp
    have := h p hp
    cases hq : p.2 with
    | none => rfl
    | some k => rw [hq] at this; simp at this
  · intro h p hp
    rw [h p hp]
    rfl

theorem full_iff_of_inv (s : Queue α κ) (hs : QInv s) :
    s.full = true ↔ s.maxsize = some s.queue.length := by
  obtain ⟨h1, h2, h3⟩ := hs
  unfold Queue.full
  cases hm : s.maxsize with
  | none => simp
  | some m =>
    by_cases hm0 : m = 0
    · subst hm0
      have := h3 0 hm
      have hq : s.queue.length = 0 := by omega
      simp [hq]
    · simp [hm0]
      constructor
      · intro h
        rw [h]
      · intro h
        rw [h]

theorem getNB_empty_iff (d : Discipline α) (c : κ → Bool) (s : Queue α κ) :
    (Queue.get d c s none).res = .error .empty ↔
      (s.queue = [] ∧ ∀ p ∈ s.putters, p.2 = none) := by
  unfold Queue.get
  cases hps : prunePutters s.putters with
  | cons p rest =>
    constructor
    · intro h
      exact absurd h (by simp)
    · intro h
      have : prunePutters s.putters = [] :=
        (prunePutters_eq_nil_iff s.putters).mpr h.2
      rw [hps] at this
      simp at this
  | nil =>
    by_cases hq : s.queue.length = 0
    · rw [dif_pos hq]
      constructor
      · intro _
        exact ⟨List.length_eq_zero.mp hq,
          (prunePutters_eq_nil_iff s.putters).mp hps⟩
      · intro _
        rfl
    · rw [dif_neg hq]
      constructor
      · intro h
        exact absurd h (by simp)
      · intro h
        exact absurd (h.1 ▸ rfl : s.queue.length = 0) hq

theorem putNB_full_iff (d : Discipline α) (c : κ → Bool) (s : Queue α κ)
    (x : α) (hs : QInv s) :
    (Queue.put d c s x none).res = .error .full ↔
      (s.full = true ∧ ∀ g ∈ s.getters, g = none) := by
  unfold Queue.put
  cases hgs : pruneGetters s.getters with
  | cons g rest =>
    constructor
    · intro h
      exact absurd h (by simp [nextTickS])
    · intro h
      have : pruneGetters s.getters = [] :=
        (pruneGetters_eq_nil_iff s.getters).mpr h.2
      rw [hgs] at this
      simp at this
  | nil =>
    by_cases hfull : s.maxsize = some s.queue.length
    · rw [if_pos hfull]
      constructor
      · intro _
        exact ⟨(full_iff_of_inv s hs).mpr hfull,
          (pruneGetters_eq_nil_iff s.getters).mp hgs⟩
      · intro _
        rfl
    · rw [if_neg hfull]
      constructor
      · intro h
        exact absurd h (by simp [nextTickS])
      · intro h
        exact absurd ((full_iff_of_inv s hs).mp h.1) hfull

theorem putCB_ne_full (d : Discipline α) (c : κ → Bool) (s : Queue α κ)
    (x : α) (k : κ) :
    (Queue.put d c s x (some k)).res ≠ .error .full := by
  unfold Queue.put
  cases hgs : pruneGetters s.getters with
  | cons g rest =>
    unfold nextTickS
    by_cases hck : c k <;> simp [hck]
  | nil =>
    by_cases hfull : s.maxsize = some s.queue.length
    · rw [if_pos hfull]
      by_cases hck : c k <;> simp [hck]
    · rw [if_neg hfull]
      unfold nextTickS
      by_cases hck : c k <;> simp [hck]

theorem getCB_ne_empty (d : Discipline α) (c : κ → Bool) (s : Queue α κ)
    (k : κ) :
    (Queue.get d c s (some k)).res ≠ .error .empty := by
  unfold Queue.get
  cases hps : prunePutters s.putters with
  | cons p rest => simp
  | nil =>
    by_cases hq : s.queue.length = 0
    · rw [dif_pos hq]
      by_cases hck : c k <;> simp [hck]
    · rw [dif_neg hq]
      simp

theorem putNone_full_never (d : Discipline α) (c : κ → Bool) (s : Queue α κ)
    (x : α) (cb : Option κ) (hm : s.maxsize = none) :
    (Queue.put d c s x cb).res ≠ .error .full := by
  unfold Queue.put
  cases hgs : pruneGetters s.getters with
  | cons g rest =>
    unfold nextTickS
    cases cb with
    | none => simp
    | some k => by_cases hck : c k <;> simp [hck]
  | nil =>
    rw [if_neg (by rw [hm]; simp)]
    unfold nextTickS
    cases cb with
    | none => simp
    | some k => by_cases hck : c k <;> simp [hck]

theorem put_badcb_typeError (d : Discipline α) (c : κ → Bool) (s : Queue α κ)
    (x : α) (k : κ) (hk : c k = false) :
    (Queue.put d c s x (some k)).res = .error .typeError := by
  unfold Queue.put
  cases hgs : pruneGetters s.getters with
  | cons g rest => simp [nextTickS, hk]
  | nil =>
    by_cases hfull : s.maxsize = some s.queue.length
    · rw [if_pos hfull]
      simp [hk]
    · rw [if_neg hfull]
      simp [nextTickS, hk]

theorem arGet_badcb_typeError (c : κ → Bool) (ar : AsyncResult V κ) (k : κ)
    (hk : c k = false) :
    (AsyncResult.get c ar (some k)).res = .error .typeError := by
  unfold AsyncResult.get
  by_cases hr : ar.ready <;> simp [hr, nextTickS, hk, Except.map]

theorem eventWait_badcb_typeError (α : Type) (c : κ → Bool)
    (e : EventState κ) (k : κ) (hk : c k = false) :
    (Event.wait α c e k).1 = .error .typeError := by
  unfold Event.wait Condition.wait
  by_cases hf : e.flag <;> simp [hf, nextTickS, hk]

theorem condWait_badcb_typeError (c : κ → Bool) (ws : List (Option κ))
    (k : κ) (hk : c k = false) :
    (Condition.wait c ws k).1 = .error .typeError := by
  unfold Condition.wait
  simp [hk]

theorem acquire_badcb_typeError (c : κ → Bool) (sem : Semaphore κ) (k : κ)
    (hk : c k = false) :
    (Semaphore.acquire c sem (some k)).res = .error .typeError := by
  unfold Semaphore.acquire
  simp [hk]

theorem join_badcb_typeError (c : κ → Bool) (jq : JoinableQueue α κ) (k : κ)
    (hk : c k = false) :
    (JoinableQueue.join c jq k).1 = .error .typeError := by
  unfold JoinableQueue.join
  by_cases hu : jq.unfinished_tasks = 0
  · simp [hu, nextTickS, hk]
  · simp [hu, eventWait_badcb_typeError α c jq.finished k hk]

theorem get_badcb_parking_typeError (d : Discipline α) (c : κ → Bool)
    (s : Queue α κ) (k : κ) (hk : c k = false) (hq : s.queue = [])
    (hp : ∀ p ∈ s.putters, p.2 = none) :
    (Queue.get d c s (some k)).res = .error .typeError := by
  unfold Queue.get
  rw [(prunePutters_eq_nil_iff s.putters).mpr hp]
  rw [dif_pos (by rw [hq]; rfl)]
  simp [hk]

theorem get_badcb_available_logged (d : Discipline α) (c : κ → Bool)
    (s : Queue α κ) (k : κ) (hk : c k = false)
    (h : s.queue ≠ [] ∨ ∃ p ∈ s.putters, p.2 ≠ none) :
    (Queue.get d c s (some k)).res = .ok none ∧
    (Queue.get d c s (some k)).effs = [Eff.logged k] := by
  unfold Queue.get
  cases hps : prunePutters s.putters with
  | cons p rest =>
    obtain ⟨item, pw⟩ := p
    exact ⟨rfl, by simp [hk]⟩
  | nil =>
    have hqne : s.queue ≠ [] := by
      rcases h with hq | ⟨p, hp, hlive⟩
      · exact hq
      · exact absurd ((prunePutters_eq_nil_iff s.putters).mp hps p hp) hlive
    rw [dif_neg (by intro hc; exact hqne (List.length_eq_zero.mp hc))]
    exact ⟨rfl, by simp [hk]⟩

theorem filterMap_map_some (ks : List κ) (f : κ → β) :
    (ks.map some).filterMap (fun w => w.map f) = ks.map f := by
  induction ks with
  | nil => rfl
  | cons k ks ih => simp [ih]

theorem c3reach : QReach (fifo Nat) (some 1) c3state :=
  Relation.ReflTransGen.tail
    (Relation.ReflTransGen.tail Relation.ReflTransGen.refl
      (QStep.put (Queue.init Nat Nat (some 1)) allCallable 1 none))
    (QStep.put _ allCallable 2 (some 5))

/-! ## The claims -/

/-- C1: For every Queue (any maxsize, any storage discipline) and every
reachable state produced by sequences of put/get calls and timeout
expiries: if the getters queue is non-empty then storage is empty, if
the putters queue is non-empty then storage.size equals maxsize, and
when maxsize is finite qsize() never exceeds maxsize. -/
theorem c1_queue_invariants (α κ : Type) (d : Discipline α)
    (m : Option Nat) (s : Queue α κ) (h : QReach d m s) :
    (s.getters ≠ [] → s.queue = []) ∧
    (s.putters ≠ [] → s.maxsize = some s.qsize) ∧
    (∀ n, s.maxsize = some n → s.qsize ≤ n) :=
  QReach_inv h

theorem c1_witness :
    (c3state.getters ≠ [] → c3state.queue = []) ∧
    (c3state.putters ≠ [] → c3state.maxsize = some c3state.qsize) ∧
    (∀ n, c3state.maxsize = some n → c3state.qsize ≤ n) :=
  c1_queue_invariants Nat Nat (fifo Nat) (some 1) c3state c3reach

/-- C2: For `q = Queue(maxsize=1)` after `q.put(1)`, with a blocking
putter `q.put(2, cb_p)` and a getter `cb_g` registered and two scheduler
turns run: `cb_g` receives `1` first (during registration, turn 0),
`cb_p` receives `true` only on the following scheduler turn, and a
subsequent non-blocking `q.get()` returns `2`.  (`cb_g` is continuation
`0`, `cb_p` is continuation `1`.) -/
theorem c2_full_queue_alternation :
    chanW5.trace =
      [(0, Eff.fired 0 (CVal.item 1)), (1, Eff.fired 1 (CVal.bool true))] ∧
    (Queue.get (fifo Nat) allCallable chanW5.q none).res = .ok (some 2) :=
  ⟨rfl, rfl⟩

/-- C3 (counterexample): the claim "storage non-empty and putters
non-empty cannot hold simultaneously" is false on the code: a reachable
state of `Queue(maxsize=1)` — after `put(1)` and a parked `put(2, cb)` —
has non-empty storage and a non-empty putters queue at once. -/
theorem c3_counterexample :
    QReach (fifo Nat) (some 1) c3state ∧
    c3state.queue ≠ [] ∧ c3state.putters ≠ [] :=
  ⟨c3reach, by decide, by decide⟩

/-- C3 (amended): for every Queue in every reachable state, "getters
non-empty" and "storage non-empty" cannot hold simultaneously; "storage
non-empty" and "putters non-empty" CAN hold together — what holds
instead is that a non-empty putters queue forces storage.size to equal
maxsize (so the two are mutually exclusive only when maxsize is 0). -/
theorem c3_amended (α κ : Type) (d : Discipline α) (m : Option Nat)
    (s : Queue α κ) (h : QReach d m s) :
    (s.getters ≠ [] → s.queue = []) ∧
    (s.putters ≠ [] → s.maxsize = some s.queue.length) :=
  ⟨(QReach_inv h).1, (QReach_inv h).2.1⟩

theorem c3_amended_witness :
    (c3state.getters ≠ [] → c3state.queue = []) ∧
    (c3state.putters ≠ [] → c3state.maxsize = some c3state.queue.length) :=
  c3_amended Nat Nat (fifo Nat) (some 1) c3state c3reach

/-- C4: Non-blocking flow-control errors: `Queue.get` with no callback
raises `Empty` exactly when storage holds no items and no live putter
waits; `Queue.put` with no callback raises `Full` exactly when there is
no room and no live getter waits; `AsyncResult.get` with no callback
raises `NotReady` exactly when the result is unset; none of these is
ever raised on a callback-bearing call; and for a Queue with
`maxsize=None`, `full()` is always false and `Full` is never raised. -/
theorem c4_flow_control (α κ V : Type) (d : Discipline α) (c : κ → Bool)
    (s : Queue α κ) (x : α) (ar : AsyncResult V κ) (hs : QInv s) :
    ((Queue.get d c s none).res = .error .empty ↔
      (s.queue = [] ∧ ∀ p ∈ s.putters, p.2 = none)) ∧
    ((Queue.put d c s x none).res = .error .full ↔
      (s.full = true ∧ ∀ g ∈ s.getters, g = none)) ∧
    ((AsyncResult.get c ar none).res = .error .notReady ↔ ar.ready = false) ∧
    (∀ k, (Queue.put d c s x (some k)).res ≠ .error .full) ∧
    (∀ k, (Queue.get d c s (some k)).res ≠ .error .empty) ∧
    (∀ k, (AsyncResult.get c ar (some k)).res ≠ .error .notReady) ∧
    (s.maxsize = none → s.full = false ∧
      ∀ cb, (Queue.put d c s x cb).res ≠ .error .full) := by
  refine ⟨getNB_empty_iff d c s, putNB_full_iff d c s x hs, ?_,
    putCB_ne_full d c s x, getCB_ne_empty d c s, ?_, ?_⟩
  · unfold AsyncResult.get
    by_cases hr : ar.ready <;> simp [hr]
  · intro k
    unfold AsyncResult.get
    by_cases hr : ar.ready <;>
      by_cases hck : c k <;>
        simp [hr, hck, nextTickS, Except.map]
  · intro hm
    refine ⟨?_, fun cb => putNone_full_never d c s x cb hm⟩
    unfold Queue.full
    rw [hm]

theorem c4_witness :
    (((Queue.get (fifo Nat) allCallable (Queue.init Nat Nat none)
        none).res = .error .empty ↔
      ((Queue.init Nat Nat none).queue = [] ∧
        ∀ p ∈ (Queue.init Nat Nat none).putters, p.2 = none)) ∧
    ((Queue.put (fifo Nat) allCallable (Queue.init Nat Nat none) 5
        none).res = .error .full ↔
      ((Queue.init Nat Nat none).full = true ∧
        ∀ g ∈ (Queue.init Nat Nat none).getters, g = none)) ∧
    ((AsyncResult.get allCallable (AsyncResult.init Nat Nat) none).res =
        .error .notReady ↔ (AsyncResult.init Nat Nat).ready = false) ∧
    (∀ k, (Queue.put (fifo Nat) allCallable (Queue.init Nat Nat none) 5
      (some k)).res ≠ .error .full) ∧
    (∀ k, (Queue.get (fifo Nat) allCallable (Queue.init Nat Nat none)
      (some k)).res ≠ .error .empty) ∧
    (∀ k, (AsyncResult.get allCallable (AsyncResult.init Nat Nat)
      (some k)).res ≠ .error .notReady) ∧
    ((Queue.init Nat Nat none).maxsize = none →
      (Queue.init Nat Nat none).full = false ∧
      ∀ cb, (Queue.put (fifo Nat) allCallable (Queue.init Nat Nat none) 5
        cb).res ≠ .error .full)) :=
  c4_flow_control Nat Nat Nat (fifo Nat) allCallable
    (Queue.init Nat Nat none) 5 (AsyncResult.init Nat Nat) (QInv_init none)

/-- C5: `AsyncResult.set(v)` raises `AlreadySet` iff the result is
already ready, leaving the state (and stored value) unchanged in that
case; otherwise it stores `v`, marks the result ready, empties the
waiter list, and runs every previously registered (live) waiter with `v`
in FIFO registration order, so that waiters registered before or after
`set` observe the same value (`get` with a callback after `set`
schedules the callback with `v`). -/
theorem c5_asyncresult_set (V κ : Type) (c : κ → Bool)
    (s : AsyncResult V κ) (v : V) (ks : List κ)
    (hws : s.waiters = ks.map some) :
    (s.ready = true →
      AsyncResult.set s v = ⟨.error .alreadySet, s, []⟩) ∧
    (s.ready = false →
      (AsyncResult.set s v).res = .ok () ∧
      (AsyncResult.set s v).state.ready = true ∧
      (AsyncResult.set s v).state.value = some v ∧
      (AsyncResult.set s v).state.waiters = [] ∧
      (AsyncResult.set s v).effs =
        ks.map (fun k => Eff.fired k (CVal.item v)) ∧
      (∀ k, c k = true →
        (AsyncResult.get c (AsyncResult.set s v).state (some k)).scheds =
          [Sched.next k (CVal.item v)])) := by
  constructor
  · intro hr
    unfold AsyncResult.set
    rw [if_pos hr]
  · intro hr
    unfold AsyncResult.set
    rw [if_neg (by rw [hr]; simp)]
    refine ⟨rfl, rfl, rfl, rfl, ?_, ?_⟩
    · show s.waiters.filterMap _ = _
      rw [hws]
      exact filterMap_map_some ks _
    · intro k hk
      unfold AsyncResult.get
      simp [nextTickS, hk, cvalOf]

theorem c5_witness :
    (((⟨false, none, [some 3, some 4]⟩ : AsyncResult Nat Nat).ready = true →
      AsyncResult.set (⟨false, none, [some 3, some 4]⟩ : AsyncResult Nat Nat)
        42 = ⟨.error .alreadySet, ⟨false, none, [some 3, some 4]⟩, []⟩) ∧
    ((⟨false, none, [some 3, some 4]⟩ : AsyncResult Nat Nat).ready = false →
      (AsyncResult.set (⟨false, none, [some 3, some 4]⟩ :
        AsyncResult Nat Nat) 42).res = .ok () ∧
      (AsyncResult.set (⟨false, none, [some 3, some 4]⟩ :
        AsyncResult Nat Nat) 42).state.ready = true ∧
      (AsyncResult.set (⟨false, none, [some 3, some 4]⟩ :
        AsyncResult Nat Nat) 42).state.value = some 42 ∧
      (AsyncResult.set (⟨false, none, [some 3, some 4]⟩ :
        AsyncResult Nat Nat) 42).state.waiters = [] ∧
      (AsyncResult.set (⟨false, none, [some 3, some 4]⟩ :
        AsyncResult Nat Nat) 42).effs =
        [3, 4].map (fun k => Eff.fired k (CVal.item 42)) ∧
      (∀ k, allCallable k = true →
        (AsyncResult.get allCallable (AsyncResult.set
          (⟨false, none, [some 3, some 4]⟩ : AsyncResult Nat Nat)
          42).state (some k)).scheds = [Sched.next k (CVal.item 42)]))) :=
  c5_asyncresult_set Nat Nat allCallable ⟨false, none, [some 3, some 4]⟩
    42 [3, 4] rfl

/-- C6: Storage-discipline round trips: for every finite sequence of
items put into an unbounded queue and then drained by gets, a plain
`Queue` delivers them in exactly the order they were put, a
`PriorityQueue` delivers them in ascending sorted order regardless of
put order, and a `LifoQueue` delivers them in the reverse of the put
order. -/
theorem c6_round_trips :
    (∀ (α : Type) (xs : List α), delivered (fifo α) xs = xs) ∧
    (∀ (α : Type) (xs : List α), delivered (lifo α) xs = xs.reverse) ∧
    (∀ (α : Type) (instL : LinearOrder α) (instI : Inhabited α)
      (xs ys : List α),
      List.Sorted (· ≤ ·) (delivered (prio α) xs) ∧
      List.Perm (delivered (prio α) xs) xs ∧
      (List.Perm xs ys → delivered (prio α) xs = delivered (prio α) ys)) := by
  refine ⟨fun α xs => delivered_fifo xs, fun α xs => delivered_lifo xs,
    fun α instL instI xs ys => ⟨(delivered_prio xs).1, (delivered_prio xs).2,
      fun hperm => ?_⟩⟩
  exact List.eq_of_perm_of_sorted
    (((delivered_prio xs).2.trans hperm).trans (delivered_prio ys).2.symm)
    (delivered_prio xs).1 (delivered_prio ys).1

/-- C7: Semaphore accounting over the queue-of-sentinels construction:
for `s = Semaphore(2)`, two non-blocking `acquire()` calls return true,
a third returns false (the underlying `Empty` is translated to false,
not raised), after one `release()` a fourth `acquire()` returns true,
and `counter(s) == 0` at that point. -/
theorem c7_semaphore_accounting :
    semC7a1.res = .ok (some true) ∧ semC7a2.res = .ok (some true) ∧
    semC7a3.res = .ok (some false) ∧ semC7a4.res = .ok (some true) ∧
    semC7a4.state.counter = 0 :=
  ⟨rfl, rfl, rfl, rfl, rfl⟩

/-- C8: `BoundedSemaphore.release` raises `ValueError` whenever the
counter is already at least the initial value, leaving the state (hence
the counter) unchanged in that case; for every `BoundedSemaphore` in
every reachable state the counter never exceeds the initial value; and
`BoundedSemaphore(1).release()` immediately fails. -/
theorem c8_bounded_semaphore (κ : Type) (v : Nat)
    (s : BoundedSemaphore κ) (h : BReach v s) :
    s.sem.counter ≤ s.initial_value ∧
    (∀ c : κ → Bool, s.initial_value ≤ s.sem.counter →
      BoundedSemaphore.release c s = (.error .valueError, s, [], [])) ∧
    (∀ c : κ → Bool,
      (BoundedSemaphore.release c (BoundedSemaphore.init κ 1)).1 =
        .error .valueError) := by
  refine ⟨(BReach_inv h).1, ?_, ?_⟩
  · intro c hge
    unfold BoundedSemaphore.release
    rw [if_pos hge]
  · intro c
    unfold BoundedSemaphore.release
    have hc : (BoundedSemaphore.init κ 1).initial_value ≤
        (BoundedSemaphore.init κ 1).sem.counter := by
      show 1 ≤ (Semaphore.init κ 1).counter
      rw [Semaphore.init_counter]
    rw [if_pos hc]

theorem c8_witness :
    ((BoundedSemaphore.init Nat 1).sem.counter ≤
      (BoundedSemaphore.init Nat 1).initial_value ∧
    (∀ c : Nat → Bool, (BoundedSemaphore.init Nat 1).initial_value ≤
        (BoundedSemaphore.init Nat 1).sem.counter →
      BoundedSemaphore.release c (BoundedSemaphore.init Nat 1) =
        (.error .valueError, BoundedSemaphore.init Nat 1, [], [])) ∧
    (∀ c : Nat → Bool,
      (BoundedSemaphore.release c (BoundedSemaphore.init Nat 1)).1 =
        .error .valueError)) :=
  c8_bounded_semaphore Nat 1 (BoundedSemaphore.init Nat 1)
    Relation.ReflTransGen.refl

/-- C9 (counterexample): the claim that every continuation-accepting
operation surfaces `TypeError` synchronously is false for `Queue.get`:
on a queue holding an item, `get` with a non-callable continuation
returns normally — the `TypeError` raised when `_run_callback` invokes
the non-callable is caught and logged, not surfaced. -/
theorem c9_counterexample :
    (Queue.get (fifo Nat) notCallable c9state (some 3)).res = .ok none ∧
    (Queue.get (fifo Nat) notCallable c9state (some 3)).res ≠
      .error .typeError ∧
    (Queue.get (fifo Nat) notCallable c9state (some 3)).effs =
      [Eff.logged 3] :=
  ⟨rfl, fun h => Except.noConfusion h, rfl⟩

/-- C9 (amended): passing a non-callable continuation surfaces a
`TypeError` synchronously within the call for `Queue.put`,
`AsyncResult.get`, `Event.wait`, `Condition.wait`, `Semaphore.acquire`
and `JoinableQueue.join` — but `Queue.get` surfaces it only on the path
that would park the continuation (storage empty and no live putter);
when an item or a live putter is immediately available, the call returns
normally and the `TypeError` is caught and logged by the
callback-exception handler. -/
theorem c9_amended (α κ V : Type) (d : Discipline α) (c : κ → Bool)
    (k : κ) (hk : c k = false) (s : Queue α κ) (x : α)
    (ar : AsyncResult V κ) (e : EventState κ) (ws : List (Option κ))
    (jq : JoinableQueue α κ) (sem : Semaphore κ) :
    (Queue.put d c s x (some k)).res = .error .typeError ∧
    (AsyncResult.get c ar (some k)).res = .error .typeError ∧
    (Event.wait α c e k).1 = .error .typeError ∧
    (Condition.wait c ws k).1 = .error .typeError ∧
    (Semaphore.acquire c sem (some k)).res = .error .typeError ∧
    (JoinableQueue.join c jq k).1 = .error .typeError ∧
    (s.queue = [] → (∀ p ∈ s.putters, p.2 = none) →
      (Queue.get d c s (some k)).res = .error .typeError) ∧
    ((s.queue ≠ [] ∨ ∃ p ∈ s.putters, p.2 ≠ none) →
      (Queue.get d c s (some k)).res = .ok none ∧
      (Queue.get d c s (some k)).effs = [Eff.logged k]) :=
  ⟨put_badcb_typeError d c s x k hk,
   arGet_badcb_typeError c ar k hk,
   eventWait_badcb_typeError α c e k hk,
   condWait_badcb_typeError c ws k hk,
   acquire_badcb_typeError c sem k hk,
   join_badcb_typeError c jq k hk,
   fun hq hp => get_badcb_parking_typeError d c s k hk hq hp,
   fun h => get_badcb_available_logged d c s k hk h⟩

theorem c9_amended_witness :
    ((Queue.put (fifo Nat) notCallable c9state 5 (some 3)).res =
      .error .typeError ∧
    (AsyncResult.get notCallable (AsyncResult.init Nat Nat)
      (some 3)).res = .error .typeError ∧
    (Event.wait Nat notCallable (Event.init Nat) 3).1 =
      .error .typeError ∧
    (Condition.wait notCallable ([] : List (Option Nat)) 3).1 =
      .error .typeError ∧
    (Semaphore.acquire notCallable (Semaphore.init Nat 0)
      (some 3)).res = .error .typeError ∧
    (JoinableQueue.join notCallable
      (⟨Queue.init Nat Nat none, 0, Event.init Nat⟩ :
        JoinableQueue Nat Nat) 3).1 = .error .typeError ∧
    (c9state.queue = [] → (∀ p ∈ c9state.putters, p.2 = none) →
      (Queue.get (fifo Nat) notCallable c9state (some 3)).res =
        .error .typeError) ∧
    ((c9state.queue ≠ [] ∨ ∃ p ∈ c9state.putters, p.2 ≠ none) →
      (Queue.get (fifo Nat) notCallable c9state (some 3)).res = .ok none ∧
      (Queue.get (fifo Nat) notCallable c9state (some 3)).effs =
        [Eff.logged 3])) :=
  c9_amended Nat Nat Nat (fifo Nat) notCallable 3 rfl c9state 5
    (AsyncResult.init Nat Nat) (Event.init Nat) []
    ⟨Queue.init Nat Nat none, 0, Event.init Nat⟩ (Semaphore.init Nat 0)

/-- C10: if `Semaphore.release()` is called while a callback-bearing
`acquire` is parked (counter 0 with a live waiting getter), the token is
handed directly to that waiter (the translating lambda fires with the
sentinel, i.e. the user callback gets `True`), so the counter remains 0
and `locked()` remains true when `release` returns — yet `release` still
sets the internal `unlocked` event flag, so a `wait(cb)` registered
afterwards has its callback scheduled for the next turn even though the
semaphore is locked. -/
theorem c10_release_with_parked_acquire :
    semC10a.state.q.getters = [some (SemCb.trans 7)] ∧
    semC10a.state.counter = 0 ∧
    semC10r.2.1 = [Eff.fired (SemCb.trans 7) (CVal.item ())] ∧
    semC10r.1.counter = 0 ∧
    semC10r.1.locked = true ∧
    semC10r.1.unlocked.flag = true ∧
    semC10w.1 = .ok () ∧
    semC10w.2.2 = [Sched.next (SemCb.user 11) CVal.unit] ∧
    semC10w.2.1.locked = true :=
  ⟨rfl, rfl, rfl, rfl, rfl, rfl, rfl, rfl, rfl⟩
